import Mathlib

/-!
Shallow embedding of the block-based BFT consensus core of tari-dan,
centred on `dan_layer/storage/src/consensus_models/block.rs`.

Identifiers (block ids, transaction ids, substate ids, shards, epochs,
heights) are modelled as natural numbers; the zero block id is `0`.
Storage-transaction reads and writes are modelled as explicit state
passing over a `Store` structure holding the relational tables the code
touches.  Fallible operations return `Except SErr`.
-/

/-- Structured storage error kinds (`StorageError` in the source). `fuelOut`
is an artifact of bounding the unbounded recursions of the source; all
theorems below supply enough fuel for it never to occur. -/
inductive SErr where
  | notFound
  | queryError
  | dataInconsistency
  | fuelOut
deriving DecidableEq, Repr

/-- Quorum certificate as used by `block.rs`: its own id, the block it
justifies, that block's height, and the epoch. -/
structure QC where
  qcId : Nat
  blockId : Nat
  blockHeight : Nat
  epoch : Nat
deriving DecidableEq, Repr

/-- Transaction decision (`Decision` in the source). -/
inductive Decision where
  | commit
  | abort
deriving DecidableEq, Repr

/-- Modelled from the spec: a transaction atom carries `transaction_id`,
`decision` and per-shard-group `evidence` (the set of substate addresses
the transaction touches in that group); the atom type itself is declared
outside `src/`. -/
structure TransactionAtom where
  id : Nat
  decision : Decision
  evidence : List (Nat × List Nat)
deriving DecidableEq, Repr

/-- Modelled from the spec: the canonical command variants of §3 of the
spec (the `Command` enum is declared outside `src/`); only the atom-bearing
variants used by `get_block_pledge` carry data the embedding needs. -/
inductive Command where
  | prepare (a : TransactionAtom)
  | localPrepare (a : TransactionAtom)
  | allPrepare (a : TransactionAtom)
  | localAccept (a : TransactionAtom)
  | allAccept (a : TransactionAtom)
  | somePrepare (a : TransactionAtom)
  | foreignProposal (blockId : Nat)
  | mintConfidentialOutput (n : Nat)
  | resumeNode (n : Nat)
  | epochEnd
deriving DecidableEq, Repr

/-- Selector `Command::local_prepare` (returns the atom of a `LocalPrepare`). -/
def Command.localPrepareAtom : Command → Option TransactionAtom
  | .localPrepare a => some a
  | _ => none

/-- Selector `Command::local_accept` (returns the atom of a `LocalAccept`). -/
def Command.localAcceptAtom : Command → Option TransactionAtom
  | .localAccept a => some a
  | _ => none

/-- Block, with the header fields `block.rs` reads plus the two stored
bookkeeping flags. -/
structure Block where
  id : Nat
  parent : Nat
  height : Nat
  epoch : Nat
  shardGroup : Nat
  justify : QC
  isDummy : Bool
  commands : List Command
  isCommitted : Bool
  isJustified : Bool
deriving DecidableEq, Repr

/-- Modelled from the spec: `BlockHeader::is_genesis` (declared in
`block_header.rs`, outside `src/`); per §8 of the spec a genesis block has
height 0. -/
def Block.isGenesis (b : Block) : Bool :=
  b.height == 0

/-- LockedBlock marker value (per-epoch singleton). -/
structure LockedMarker where
  blockId : Nat
  height : Nat
deriving DecidableEq, Repr

/-- LastExecuted marker value. -/
structure LastExec where
  blockId : Nat
  height : Nat
deriving DecidableEq, Repr

/-- HighQC marker value. -/
structure HighQcM where
  blockId : Nat
  height : Nat
  qcId : Nat
deriving DecidableEq, Repr

/-- Versioned substate record: creation carries
`(epoch, height, block_id, transaction_id, justify_qc_id)`; `destroyed`
holds the destroying transaction when the record is downed. -/
structure SubstateRec where
  substateId : Nat
  version : Nat
  value : Nat
  shard : Nat
  createdEpoch : Nat
  createdHeight : Nat
  createdBlock : Nat
  createdBy : Nat
  createdJustify : Nat
  destroyed : Option Nat
deriving DecidableEq, Repr

/-- A single substate change of a block diff (`SubstateChange`). -/
inductive Change where
  | up (substateId version shard txId value : Nat)
  | down (substateId version shard txId : Nat)
deriving DecidableEq, Repr

/-- Block diff: the block it belongs to and its ordered changes. -/
structure BlockDiffR where
  blockId : Nat
  changes : List Change
deriving DecidableEq, Repr

/-- A substate lock row as returned by
`substate_locks_get_locked_substates_for_transaction`: the holding
transaction, the locked address, the lock intent data (operation, address,
version), the optional substate value, and the block that wrote the lock. -/
structure LockedSubstate where
  txId : Nat
  addr : Nat
  op : Nat
  version : Nat
  value : Option Nat
  blockId : Nat
deriving DecidableEq, Repr

/-- Lock intent as passed to `SubstatePledge::try_create`. -/
structure LockIntentT where
  op : Nat
  addr : Nat
  version : Nat
deriving DecidableEq, Repr

/-- The lock intent of a lock row (`to_substate_lock_intent`). -/
def LockedSubstate.intent (l : LockedSubstate) : LockIntentT :=
  ⟨l.op, l.addr, l.version⟩

/-- The state-store tables touched by `block.rs`, as explicit state. -/
structure Store where
  blocks : List Block
  lockedBlocks : List (Nat × LockedMarker)
  lastExecuted : Option LastExec
  highQcs : List (Nat × HighQcM)
  substates : List SubstateRec
  blockDiffs : List (Nat × List Change)
  pendingTreeDiffs : List (Nat × Nat)
  substateLocks : List LockedSubstate
  poolStateUpdates : List (Nat × Nat)
  transactionExecutions : List (Nat × Nat)
  foreignProposals : List (Nat × Option Nat)
  burntUtxos : List (Nat × Option Nat)
deriving DecidableEq, Repr

/-- Lookup in an association list keyed by `Nat`. -/
def lookupNat {α : Type} (l : List (Nat × α)) (k : Nat) : Option α :=
  (l.find? (fun e => e.1 == k)).map (fun e => e.2)

/-- Replace (or insert) the entry at key `k`. -/
def setAssoc {α : Type} (l : List (Nat × α)) (k : Nat) (v : α) : List (Nat × α) :=
  (k, v) :: l.filter (fun e => e.1 != k)

/-- Lookup a block by id (`blocks_get` / `blocks_exists`). -/
def blocksFind? (bs : List Block) (x : Nat) : Option Block :=
  bs.find? (fun c => c.id == x)

/-- Ids of the stored blocks whose parent is `id`
(`blocks_get_ids_by_parent`). -/
def childIds (bs : List Block) (id : Nat) : List Nat :=
  (bs.filter (fun c => c.parent == id)).map (fun c => c.id)

/-- Ids of the stored blocks at a given epoch and height
(`blocks_get_all_ids_by_height`). -/
def idsByEpochHeight (bs : List Block) (e h : Nat) : List Nat :=
  (bs.filter (fun c => c.epoch == e && c.height == h)).map (fun c => c.id)

/-- Largest height among stored blocks; used to bound the recursions. -/
def maxHeight (bs : List Block) : Nat :=
  bs.foldr (fun b acc => max b.height acc) 0

/-- Iterated parent lookup: follow the stored parent pointers for `k`
steps starting from id `x` (the id reached need not itself be stored at
the final step). -/
def parentIterId (bs : List Block) : Nat → Nat → Option Nat
  | 0, x => some x
  | k + 1, x =>
    match blocksFind? bs x with
    | some b => parentIterId bs k b.parent
    | none => none

/-- The locked-block marker for an epoch, when present. -/
def lockedGet? (st : Store) (e : Nat) : Option LockedMarker :=
  lookupNat st.lockedBlocks e

/-- Write the locked-block marker from a block
(`block.as_locked_block().set(tx)`). -/
def setLockedFrom (st : Store) (b : Block) : Store :=
  { st with lockedBlocks := setAssoc st.lockedBlocks b.epoch ⟨b.id, b.height⟩ }

/-- Write the last-executed marker from a block
(`block.as_last_executed().set(tx)`). -/
def setLastExecutedFrom (st : Store) (b : Block) : Store :=
  { st with lastExecuted := some ⟨b.id, b.height⟩ }

/-- Modelled from the spec: `QuorumCertificate::update_high_qc` (declared
outside `src/`); per §4.5 of the spec the HighQC marker advances exactly
when the new QC's height is strictly greater, and is created when absent. -/
def updateHighQc (st : Store) (qc : QC) : Store × HighQcM :=
  match lookupNat st.highQcs qc.epoch with
  | some h =>
    if h.height < qc.blockHeight then
      let hq : HighQcM := ⟨qc.blockId, qc.blockHeight, qc.qcId⟩
      ({ st with highQcs := setAssoc st.highQcs qc.epoch hq }, hq)
    else
      (st, h)
  | none =>
    let hq : HighQcM := ⟨qc.blockId, qc.blockHeight, qc.qcId⟩
    ({ st with highQcs := setAssoc st.highQcs qc.epoch hq }, hq)

/-- Parent lookup of a block (`Block::get_parent`): a zero block whose
parent is zero has no parent; otherwise the parent must be stored. -/
def getParentB (bs : List Block) (b : Block) : Except SErr Block :=
  if b.id = 0 ∧ b.parent = 0 then .error .notFound
  else
    match blocksFind? bs b.parent with
    | some p => .ok p
    | none => .error .notFound

/-- The `on_locked_block_recurse` walk: while the locked height is below
the block's height, recurse to the parent first, then fire the callback;
the returned list is the blocks the callback fired on, in firing order. -/
def onLockedBlockRecurse (fuel : Nat) (bs : List Block) (lockedH : Nat) (b : Block) :
    Except SErr (List Block) :=
  match fuel with
  | 0 => .error .fuelOut
  | f + 1 =>
    if lockedH < b.height then do
      let p ← getParentB bs b
      let fired ← onLockedBlockRecurse f bs lockedH p
      .ok (fired ++ [b])
    else .ok []

/-- The `on_commit_block_recurse` walk: same shape as the locked walk but
guarded by the last-executed height. -/
def onCommitBlockRecurse (fuel : Nat) (bs : List Block) (lastH : Nat) (b : Block) :
    Except SErr (List Block) :=
  match fuel with
  | 0 => .error .fuelOut
  | f + 1 =>
    if lastH < b.height then do
      let p ← getParentB bs b
      let fired ← onCommitBlockRecurse f bs lastH p
      .ok (fired ++ [b])
    else .ok []

/-- The lock rule of `Block::update_nodes` (lines 852-861): when the
prepared node is above the current locked block, fire `on_lock_block` up
the chain and set the LockedBlock marker to the prepared node. -/
def lockStep (st : Store) (locked : LockedMarker) (prepared : Block) :
    Except SErr (Store × List Block) :=
  if locked.height < prepared.height then do
    let fired ← onLockedBlockRecurse (prepared.height + 1) st.blocks locked.height prepared
    .ok (setLockedFrom st prepared, fired)
  else .ok (st, [])

/-- The commit rule of `Block::update_nodes` (lines 863-895): when the
3-chain is contiguous and the commit node is not the zero block, fire
`on_commit_block` up the chain and set the LastExecuted marker to the
commit node. -/
def commitStep (st : Store) (justified prepared : Block) :
    Except SErr (Store × List Block) :=
  if justified.parent = prepared.id ∧ prepared.parent = prepared.justify.blockId then
    if prepared.justify.blockId = 0 then .ok (st, [])
    else do
      match blocksFind? st.blocks prepared.justify.blockId with
      | none => .error .notFound
      | some cb =>
        match st.lastExecuted with
        | none => .error .notFound
        | some le => do
          let fired ← onCommitBlockRecurse (cb.height + 1) st.blocks le.height cb
          .ok (setLastExecutedFrom st cb, fired)
  else .ok (st, [])

/-- `Block::update_nodes`: update HighQC from the new block's justify QC,
resolve the justified node `b''` and the prepared node `b'`, return early
when `b'` is genesis, then apply the lock rule and the commit rule.  The
two returned lists are the blocks `on_lock_block` and `on_commit_block`
fired on, in firing order. -/
def updateNodes (st : Store) (b : Block) :
    Except SErr (Store × HighQcM × List Block × List Block) := do
  let pr := updateHighQc st b.justify
  let st1 := pr.1
  let hq := pr.2
  match blocksFind? st1.blocks b.justify.blockId with
  | none => .error .notFound
  | some justified =>
    match blocksFind? st1.blocks justified.justify.blockId with
    | none => .error .notFound
    | some prepared =>
      if prepared.isGenesis then .ok (st1, hq, [], [])
      else
        match lockedGet? st1 b.epoch with
        | none => .error .notFound
        | some locked => do
          let (st2, lockFired) ← lockStep st1 locked prepared
          let (st3, commitFired) ← commitStep st2 justified prepared
          .ok (st3, hq, lockFired, commitFired)

/-- Modelled from the spec: the `blocks_is_ancestor` walk of the block
graph (§4.3 `is_ancestor(descendant, ancestor)`, implemented outside
`src/`): follow parent pointers from `x` until `anc` is reached (true) or
the chain leaves the store (false). -/
def isAncestorW (fuel : Nat) (bs : List Block) (x anc : Nat) : Bool :=
  match fuel with
  | 0 => false
  | f + 1 =>
    if x = anc then true
    else
      match blocksFind? bs x with
      | some b => isAncestorW f bs b.parent anc
      | none => false

/-- `Block::extends`: false if the block is the ancestor itself, true if
the ancestor is its parent, false (not an error) if its parent is not
stored, otherwise the ancestor walk from the parent. -/
def extendsB (bs : List Block) (b : Block) (anc : Nat) : Except SErr Bool :=
  if b.id = anc then .ok false
  else if b.parent = anc then .ok true
  else
    match blocksFind? bs b.parent with
    | none => .ok false
    | some _ => .ok (isAncestorW (maxHeight bs + 2) bs b.parent anc)

/-- `Block::is_safe`: the safeNode predicate; requires the LockedBlock
marker of the proposal's epoch, then tests the liveness rule and the
safety rule in order. -/
def isSafe (st : Store) (b : Block) : Except SErr Bool :=
  match lockedGet? st b.epoch with
  | none => .error .notFound
  | some locked =>
    if locked.height < b.justify.blockHeight then .ok true
    else do
      let ext ← extendsB st.blocks b locked.blockId
      if ext then .ok true else .ok false

/-- Modelled from the spec: `BlockDiff::remove` / `block_diffs_remove`
(implemented outside `src/`): deleting the stored diff rows of a block
fails with `NotFound` when none are stored, as witnessed by the
`.optional()` adapter the source applies at the call site in
`delete_block_and_children` but not in `commit_diff`. -/
def blockDiffsRemove (st : Store) (id : Nat) : Except SErr Store :=
  match lookupNat st.blockDiffs id with
  | none => .error .notFound
  | some _ => .ok { st with blockDiffs := st.blockDiffs.filter (fun e => e.1 != id) }

/-- Modelled from the spec: `SubstateRecord::create` (declared outside
`src/`); per §3 of the spec at most one record exists per
`(SubstateId, version)`, so creating an already-present version is a
structured error. -/
def substateCreate (st : Store) (r : SubstateRec) : Except SErr Store :=
  if st.substates.any (fun s => s.substateId == r.substateId && s.version == r.version) then
    .error .queryError
  else .ok { st with substates := st.substates ++ [r] }

/-- Modelled from the spec: `SubstateRecord::destroy` (declared outside
`src/`); per §3 of the spec destruction references the exact live version
it destroys, so a missing or already-destroyed record is a structured
error. -/
def substateDestroy (st : Store) (sid ver txId : Nat) : Except SErr Store :=
  match st.substates.find? (fun s =>
      s.substateId == sid && s.version == ver && s.destroyed.isNone) with
  | none => .error .notFound
  | some _ =>
    .ok { st with substates := st.substates.map (fun s =>
      if s.substateId == sid && s.version == ver && s.destroyed.isNone then
        { s with destroyed := some txId }
      else s) }

/-- Apply the changes of a diff in order (the loop of `commit_diff`). -/
def applyChanges (b : Block) : Store → List Change → Except SErr Store
  | st, [] => .ok st
  | st, .up sid ver shard txId value :: rest => do
    let st2 ← substateCreate st
      ⟨sid, ver, value, shard, b.epoch, b.height, b.id, txId, b.justify.qcId, none⟩
    applyChanges b st2 rest
  | st, .down sid ver _shard txId :: rest => do
    let st2 ← substateDestroy st sid ver txId
    applyChanges b st2 rest

/-- Set the `is_committed` flag of a stored block
(`blocks_set_flags(id, Some(true), None)`). -/
def blocksSetCommitted (st : Store) (id : Nat) : Store :=
  { st with blocks := st.blocks.map (fun c =>
      if c.id == id then { c with isCommitted := true } else c) }

/-- `Block::commit_diff`: reject a diff for a different block; reject a
non-empty diff for a dummy block; for non-dummy blocks remove the stored
diff rows; apply the changes; finally set the committed flag. -/
def commitDiff (st : Store) (b : Block) (d : BlockDiffR) : Except SErr Store := do
  if d.blockId ≠ b.id then .error .queryError
  else if b.isDummy ∧ ¬ d.changes.isEmpty then .error .queryError
  else do
    let st1 ← if b.isDummy then .ok st else blockDiffsRemove st b.id
    let st2 ← applyChanges b st1 d.changes
    .ok (blocksSetCommitted st2 b.id)

/-- Substate locks held by a transaction
(`substate_locks_get_locked_substates_for_transaction`). -/
def locksForTx (st : Store) (txId : Nat) : List LockedSubstate :=
  st.substateLocks.filter (fun l => l.txId == txId)

/-- The `LocalPrepare`-or-`LocalAccept` atom of a command
(`cmd.local_prepare().or_else(|| cmd.local_accept())`). -/
def lpOrLa (c : Command) : Option TransactionAtom :=
  match c.localPrepareAtom with
  | some a => some a
  | none => c.localAcceptAtom

/-- Evidence of an atom for one shard group (`atom.evidence.get(sg)`). -/
def evidenceGet (ev : List (Nat × List Nat)) (sg : Nat) : Option (List Nat) :=
  lookupNat ev sg

/-- Turn the filtered locks of one atom into pledges keyed by the lock's
transaction id; a failing `SubstatePledge::try_create` is a
data-inconsistency error. -/
def pledgesForLocks (tryC : LockIntentT → Option Nat → Option Nat) :
    List LockedSubstate → Except SErr (List (Nat × Nat))
  | [] => .ok []
  | l :: rest =>
    match tryC l.intent l.value with
    | none => .error .dataInconsistency
    | some p => do
      let ps ← pledgesForLocks tryC rest
      .ok ((l.txId, p) :: ps)

/-- The per-command loop body of `get_block_pledge` over the block's
commands: keep `LocalPrepare`/`LocalAccept` atoms, skip aborted atoms and
atoms without evidence for the block's shard group, keep only locks whose
address is in that evidence, and pledge each. `tryC` abstracts
`SubstatePledge::try_create`, whose definition lives outside `src/`. -/
def getBlockPledgeGo (tryC : LockIntentT → Option Nat → Option Nat) (st : Store)
    (sg : Nat) : List Command → Except SErr (List (Nat × Nat))
  | [] => .ok []
  | c :: cs =>
    match lpOrLa c with
    | none => getBlockPledgeGo tryC st sg cs
    | some atom =>
      if atom.decision = .abort then getBlockPledgeGo tryC st sg cs
      else
        match evidenceGet atom.evidence sg with
        | none => getBlockPledgeGo tryC st sg cs
        | some ev => do
          let locks := (locksForTx st atom.id).filter (fun l => ev.contains l.addr)
          let ps ← pledgesForLocks tryC locks
          let rest ← getBlockPledgeGo tryC st sg cs
          .ok (ps ++ rest)

/-- `Block::get_block_pledge`. -/
def getBlockPledge (tryC : LockIntentT → Option Nat → Option Nat) (st : Store)
    (b : Block) : Except SErr (List (Nat × Nat)) :=
  getBlockPledgeGo tryC st b.shardGroup b.commands

/-- Remove all stored artifacts of one block id: its block diffs, pending
state tree diffs, substate locks, transaction pool state updates and
transaction execution records, and clear the proposed-in marks of foreign
proposals and burnt utxos (the artifact removals of
`delete_block_and_children`; the two `.optional()` calls make the first
two removals non-failing). -/
def removeArtifacts (st : Store) (id : Nat) : Store :=
  { st with
    blockDiffs := st.blockDiffs.filter (fun e => e.1 != id)
    pendingTreeDiffs := st.pendingTreeDiffs.filter (fun e => e.1 != id)
    substateLocks := st.substateLocks.filter (fun l => l.blockId != id)
    poolStateUpdates := st.poolStateUpdates.filter (fun e => e.1 != id)
    transactionExecutions := st.transactionExecutions.filter (fun e => e.1 != id)
    foreignProposals := st.foreignProposals.map (fun e =>
      if e.2 == some id then (e.1, none) else e)
    burntUtxos := st.burntUtxos.map (fun e =>
      if e.2 == some id then (e.1, none) else e) }

/-- Delete a block row (`blocks_delete`). -/
def blocksDelete (st : Store) (id : Nat) : Store :=
  { st with blocks := st.blocks.filter (fun c => c.id != id) }

/-- One level of the deletion worklist: for each id on the list, first
delete (via `del`, which will be the next-lower-fuel recursion) the
subtree of each of its current children, then remove its artifacts and
its block row, then continue with the rest of the list. -/
def delStep (del : Store → List Nat → Except SErr Store) :
    Store → List Nat → Except SErr Store
  | st, [] => .ok st
  | st, id :: rest => do
    let s2 ← del st (childIds st.blocks id)
    delStep del (blocksDelete (removeArtifacts s2 id) id) rest

/-- Worklist form of `delete_block_and_children`: recursion depth along
parent-child edges is bounded by `fuel`; `delRec fuel st [id]` is exactly
`delete_block_and_children(tx, id)` with that depth bound. -/
def delRec : Nat → Store → List Nat → Except SErr Store
  | 0, st, ids =>
    match ids with
    | [] => .ok st
    | _ :: _ => .error .fuelOut
  | f + 1, st, ids => delStep (delRec f) st ids

theorem delRec_nil (fuel : Nat) (st : Store) : delRec fuel st [] = .ok st := by
  cases fuel <;> rfl

theorem delRec_zero_cons (st : Store) (id : Nat) (rest : List Nat) :
    delRec 0 st (id :: rest) = .error .fuelOut := rfl

theorem delRec_succ_cons (f : Nat) (st : Store) (id : Nat) (rest : List Nat) :
    delRec (f + 1) st (id :: rest) =
      match delRec f st (childIds st.blocks id) with
      | .error e => .error e
      | .ok st2 => delRec (f + 1) (blocksDelete (removeArtifacts st2 id) id) rest := by
  show delStep (delRec f) st (id :: rest) = _
  rw [delStep]
  cases h : delRec f st (childIds st.blocks id) with
  | error e => rfl
  | ok s2 => rfl

/-- `delete_block_and_children`. -/
def deleteBlockAndChildren (fuel : Nat) (st : Store) (id : Nat) : Except SErr Store :=
  delRec fuel st [id]

/-- The loop of `Block::remove_parallel_chains` over the ids at the
block's epoch and height, skipping the block itself. -/
def rpcGo (fuel selfId : Nat) : Store → List Nat → Except SErr Store
  | st, [] => .ok st
  | st, id :: rest =>
    if id = selfId then rpcGo fuel selfId st rest
    else
      match deleteBlockAndChildren fuel st id with
      | .error e => .error e
      | .ok st2 => rpcGo fuel selfId st2 rest

/-- `Block::remove_parallel_chains`: delete every other chain rooted at
the block's epoch and height. -/
def removeParallelChains (st : Store) (b : Block) : Except SErr Store :=
  rpcGo (maxHeight st.blocks + 1) b.id st (idsByEpochHeight st.blocks b.epoch b.height)

deriving instance DecidableEq for Except

/-- Well-formed heights: every stored block sits strictly above its
stored parent.  This is the structural invariant of the block graph the
chain recursions rely on. -/
def HeightWF (bs : List Block) : Prop :=
  ∀ b ∈ bs, ∀ p ∈ bs, p.id = b.parent → p.height < b.height

instance (bs : List Block) : Decidable (HeightWF bs) :=
  inferInstanceAs (Decidable (∀ b ∈ bs, ∀ p ∈ bs, p.id = b.parent → p.height < b.height))

/-- Stored block ids are pairwise distinct. -/
def IdsNodup (bs : List Block) : Prop :=
  (bs.map (fun b => b.id)).Nodup

instance (bs : List Block) : Decidable (IdsNodup bs) :=
  inferInstanceAs (Decidable ((bs.map (fun b : Block => b.id)).Nodup))

/-- Id `x` reaches id `y` by following zero or more stored parent
pointers ("y is x or an ancestor of x"). -/
def ReachOrSelf (bs : List Block) (x y : Nat) : Prop :=
  ∃ k, parentIterId bs k x = some y

/-- Proper-descendant relation used by the safeNode safety rule: the
block is not the ancestor itself and its parent chain reaches the
ancestor id. -/
def ProperDesc (bs : List Block) (b : Block) (anc : Nat) : Prop :=
  b.id ≠ anc ∧ ∃ k, parentIterId bs k b.parent = some anc

/-- Stop condition of an ascending chain: the head's parent (which must
exist) does not exceed the marker height. -/
def stopBelowB (bs : List Block) (h : Nat) : Option Block → Bool
  | none => true
  | some hd =>
    match getParentB bs hd with
    | .ok p => decide (p.height ≤ h)
    | .error _ => false

/-- Specification-side description of the chain the lock/commit
recursions fire on: a non-empty list of blocks ending at `b`, linked each
to the next by the stored parent relation with strictly ascending
heights, all strictly above the marker height `h`, and whose lowest
element's parent exists with height at most `h`. -/
def AscChain (bs : List Block) (h : Nat) (b : Block) (l : List Block) : Prop :=
  l ≠ [] ∧ l.getLast? = some b ∧ (∀ x ∈ l, h < x.height) ∧
  List.Chain' (fun x y => getParentB bs y = .ok x ∧ x.height < y.height) l ∧
  stopBelowB bs h l.head? = true

/-- Executable form of the chain-link condition of `AscChain`. -/
def chainLinkB (bs : List Block) : List Block → Bool
  | [] => true
  | [_] => true
  | x :: y :: rest =>
    (decide (getParentB bs y = .ok x) && decide (x.height < y.height)) &&
      chainLinkB bs (y :: rest)

theorem chainLinkB_iff (bs : List Block) : ∀ (l : List Block),
    chainLinkB bs l = true ↔
      List.Chain' (fun x y => getParentB bs y = .ok x ∧ x.height < y.height) l := by
  intro l
  match l with
  | [] => simp [chainLinkB]
  | [x] => simp [chainLinkB]
  | x :: y :: rest =>
    rw [List.chain'_cons]
    unfold chainLinkB
    rw [Bool.and_eq_true, Bool.and_eq_true]
    rw [chainLinkB_iff bs (y :: rest)]
    simp [and_assoc]

instance (bs : List Block) (h : Nat) (b : Block) (l : List Block) :
    Decidable (AscChain bs h b l) :=
  decidable_of_iff (l ≠ [] ∧ l.getLast? = some b ∧
      (∀ x ∈ l, h < x.height) ∧ chainLinkB bs l = true ∧
      stopBelowB bs h l.head? = true)
    (by unfold AscChain; rw [chainLinkB_iff])

/-- Every artifact of block id `id` is gone from the store: no diff, no
pending tree diff, no substate lock, no pool state update, no execution
record, and no proposed-in mark. -/
def Cleared (st : Store) (id : Nat) : Prop :=
  lookupNat st.blockDiffs id = none ∧
  lookupNat st.pendingTreeDiffs id = none ∧
  (∀ l ∈ st.substateLocks, l.blockId ≠ id) ∧
  lookupNat st.poolStateUpdates id = none ∧
  lookupNat st.transactionExecutions id = none ∧
  (∀ e ∈ st.foreignProposals, e.2 ≠ some id) ∧
  (∀ e ∈ st.burntUtxos, e.2 ≠ some id)

instance (st : Store) (id : Nat) : Decidable (Cleared st id) :=
  inferInstanceAs (Decidable (lookupNat st.blockDiffs id = none ∧
    lookupNat st.pendingTreeDiffs id = none ∧
    (∀ l ∈ st.substateLocks, l.blockId ≠ id) ∧
    lookupNat st.poolStateUpdates id = none ∧
    lookupNat st.transactionExecutions id = none ∧
    (∀ e ∈ st.foreignProposals, e.2 ≠ some id) ∧
    (∀ e ∈ st.burntUtxos, e.2 ≠ some id)))

theorem blocksFind?_eq_some {bs : List Block} {x : Nat} {b : Block}
    (h : blocksFind? bs x = some b) : b ∈ bs ∧ b.id = x := by
  refine ⟨List.mem_of_find?_eq_some h, ?_⟩
  have := List.find?_some h
  simpa using this

theorem blocksFind?_of_mem {bs : List Block} (hn : IdsNodup bs) {b : Block}
    (hb : b ∈ bs) : blocksFind? bs b.id = some b := by
  induction bs with
  | nil => cases hb
  | cons hd tl ih =>
    unfold IdsNodup at hn
    simp only [List.map_cons, List.nodup_cons] at hn
    rcases List.mem_cons.1 hb with rfl | hmem
    · simp [blocksFind?, List.find?]
    · have hne : hd.id ≠ b.id := by
        intro he
        exact hn.1 (he ▸ List.mem_map_of_mem (fun c => c.id) hmem)
      unfold blocksFind? List.find?
      have : (hd.id == b.id) = false := by
        simp [hne]
      rw [this]
      exact ih hn.2 hmem

theorem blocksFind?_sublist {bs1 bs2 : List Block} (hs : bs1.Sublist bs2)
    (hn : IdsNodup bs2) {x : Nat} {b : Block}
    (h : blocksFind? bs1 x = some b) : blocksFind? bs2 x = some b := by
  obtain ⟨hmem, hid⟩ := blocksFind?_eq_some h
  have := blocksFind?_of_mem hn (hs.subset hmem)
  rwa [hid] at this

theorem idsNodup_sublist {bs1 bs2 : List Block} (hs : bs1.Sublist bs2)
    (hn : IdsNodup bs2) : IdsNodup bs1 :=
  List.Nodup.sublist (List.Sublist.map (fun b => b.id) hs) hn

theorem parentIterId_zero (bs : List Block) (x : Nat) :
    parentIterId bs 0 x = some x := rfl

theorem parentIterId_succ (bs : List Block) (k x : Nat) :
    parentIterId bs (k + 1) x =
      match blocksFind? bs x with
      | some b => parentIterId bs k b.parent
      | none => none := rfl

theorem parentIterId_add (bs : List Block) (m n x : Nat) :
    parentIterId bs (m + n) x =
      (parentIterId bs m x).bind (fun y => parentIterId bs n y) := by
  induction m generalizing x with
  | zero => simp [parentIterId_zero]
  | succ m ih =>
    rw [show m + 1 + n = (m + n) + 1 by omega]
    rw [parentIterId_succ bs (m + n) x, parentIterId_succ bs m x]
    cases hf : blocksFind? bs x with
    | none => simp
    | some c => simpa using ih c.parent

theorem parentIterId_sublist {bs1 bs2 : List Block} (hs : bs1.Sublist bs2)
    (hn : IdsNodup bs2) {k x y : Nat}
    (h : parentIterId bs1 k x = some y) : parentIterId bs2 k x = some y := by
  induction k generalizing x with
  | zero => simpa [parentIterId_zero] using h
  | succ k ih =>
    rw [parentIterId_succ] at h ⊢
    cases hf : blocksFind? bs1 x with
    | none => rw [hf] at h; cases h
    | some c =>
      rw [hf] at h
      rw [blocksFind?_sublist hs hn hf]
      exact ih h

theorem maxHeight_mem {bs : List Block} {b : Block} (hb : b ∈ bs) :
    b.height ≤ maxHeight bs := by
  induction bs with
  | nil => cases hb
  | cons hd tl ih =>
    rcases List.mem_cons.1 hb with rfl | hmem
    · simp [maxHeight]
    · have := ih hmem
      simp only [maxHeight, List.foldr_cons] at *
      omega

theorem parentIterId_height {bs : List Block} (hwf : HeightWF bs) :
    ∀ (k : Nat) {x y : Nat} {xb yb : Block},
      parentIterId bs (k + 1) x = some y →
      blocksFind? bs x = some xb → yb ∈ bs → yb.id = y →
      yb.height + k + 1 ≤ xb.height := by
  intro k
  induction k with
  | zero =>
    intro x y xb yb hit hfx hyb hyid
    rw [parentIterId_succ bs 0 x, hfx] at hit
    simp only [parentIterId_zero, Option.some_inj] at hit
    obtain ⟨hxm, _⟩ := blocksFind?_eq_some hfx
    have := hwf xb hxm yb hyb (by rw [hyid, hit])
    omega
  | succ k ih =>
    intro x y xb yb hit hfx hyb hyid
    have h1 : parentIterId bs 1 x = some xb.parent := by
      rw [parentIterId_succ bs 0 x, hfx]
      rfl
    rw [show k + 1 + 1 = 1 + (k + 1) by omega, parentIterId_add bs 1 (k + 1) x,
      h1] at hit
    simp only [Option.some_bind] at hit
    cases hfp : blocksFind? bs xb.parent with
    | none =>
      rw [parentIterId_succ, hfp] at hit
      cases hit
    | some pb =>
      have hple := ih hit hfp hyb hyid
      obtain ⟨hxm, _⟩ := blocksFind?_eq_some hfx
      obtain ⟨hpm, hpid⟩ := blocksFind?_eq_some hfp
      have := hwf xb hxm pb hpm hpid
      omega

theorem isAncestorW_true_reach {bs : List Block} :
    ∀ (fuel : Nat) {x anc : Nat}, isAncestorW fuel bs x anc = true →
      ∃ k, parentIterId bs k x = some anc := by
  intro fuel
  induction fuel with
  | zero => intro x anc h; simp [isAncestorW] at h
  | succ f ih =>
    intro x anc h
    unfold isAncestorW at h
    by_cases hx : x = anc
    · exact ⟨0, by simp [parentIterId_zero, hx]⟩
    · rw [if_neg hx] at h
      cases hf : blocksFind? bs x with
      | none => rw [hf] at h; cases h
      | some c =>
        rw [hf] at h
        obtain ⟨k, hk⟩ := ih h
        exact ⟨k + 1, by rw [parentIterId_succ, hf]; exact hk⟩

theorem reach_isAncestorW {bs : List Block} :
    ∀ (k : Nat) {x anc : Nat} (fuel : Nat), parentIterId bs k x = some anc →
      k + 1 ≤ fuel → isAncestorW fuel bs x anc = true := by
  intro k
  induction k with
  | zero =>
    intro x anc fuel hk hf
    simp [parentIterId_zero, Option.some_inj] at hk
    obtain ⟨f, rfl⟩ : ∃ f, fuel = f + 1 := ⟨fuel - 1, by omega⟩
    unfold isAncestorW
    rw [if_pos hk]
  | succ k ih =>
    intro x anc fuel hk hf
    obtain ⟨f, rfl⟩ : ∃ f, fuel = f + 1 := ⟨fuel - 1, by omega⟩
    unfold isAncestorW
    by_cases hx : x = anc
    · rw [if_pos hx]
    · rw [if_neg hx]
      rw [parentIterId_succ] at hk
      cases hfx : blocksFind? bs x with
      | none => rw [hfx] at hk; cases hk
      | some c =>
        rw [hfx] at hk
        exact ih f hk (by omega)

theorem parentIterId_fuel_bound {bs : List Block} (hwf : HeightWF bs) :
    ∀ (k : Nat) {x y : Nat} {xb : Block},
      parentIterId bs (k + 1) x = some y →
      blocksFind? bs x = some xb → k ≤ xb.height := by
  intro k
  induction k with
  | zero => intro x y xb _ _; omega
  | succ k ih =>
    intro x y xb hit hfx
    have h1 : parentIterId bs 1 x = some xb.parent := by
      rw [parentIterId_succ bs 0 x, hfx]
      rfl
    rw [show k + 1 + 1 = 1 + (k + 1) by omega, parentIterId_add bs 1 (k + 1) x,
      h1] at hit
    simp only [Option.some_bind] at hit
    cases hfp : blocksFind? bs xb.parent with
    | none =>
      rw [parentIterId_succ, hfp] at hit
      cases hit
    | some pb =>
      have hk := ih hit hfp
      obtain ⟨hxm, _⟩ := blocksFind?_eq_some hfx
      obtain ⟨hpm, hpid⟩ := blocksFind?_eq_some hfp
      have := hwf xb hxm pb hpm hpid
      omega

theorem extendsB_iff {bs : List Block} (hwf : HeightWF bs) (b : Block) (anc : Nat) :
    extendsB bs b anc = .ok true ↔ ProperDesc bs b anc := by
  unfold extendsB
  by_cases hid : b.id = anc
  · rw [if_pos hid]
    simp only [ProperDesc]
    constructor
    · intro h; cases h
    · intro h; exact absurd hid h.1
  · rw [if_neg hid]
    by_cases hpar : b.parent = anc
    · rw [if_pos hpar]
      simp only [ProperDesc]
      constructor
      · intro _; exact ⟨hid, 0, by simp [parentIterId_zero, hpar]⟩
      · intro _; trivial
    · rw [if_neg hpar]
      cases hfp : blocksFind? bs b.parent with
      | none =>
        simp only [ProperDesc]
        constructor
        · intro h; cases h
        · rintro ⟨-, k, hk⟩
          cases k with
          | zero => simp [parentIterId_zero] at hk; exact absurd hk hpar
          | succ k =>
            rw [parentIterId_succ, hfp] at hk
            cases hk
      | some pb =>
        simp only [Except.ok.injEq, ProperDesc]
        constructor
        · intro h
          exact ⟨hid, isAncestorW_true_reach (maxHeight bs + 2) h⟩
        · rintro ⟨-, k, hk⟩
          cases k with
          | zero => simp [parentIterId_zero] at hk; exact absurd hk hpar
          | succ k =>
            have hb := parentIterId_fuel_bound hwf k hk hfp
            have hmax := maxHeight_mem (blocksFind?_eq_some hfp).1
            exact reach_isAncestorW (k + 1) (maxHeight bs + 2) hk (by omega)

theorem extendsB_total (bs : List Block) (b : Block) (anc : Nat) :
    ∃ v, extendsB bs b anc = .ok v := by
  unfold extendsB
  by_cases hid : b.id = anc
  · exact ⟨false, by rw [if_pos hid]⟩
  · rw [if_neg hid]
    by_cases hpar : b.parent = anc
    · exact ⟨true, by rw [if_pos hpar]⟩
    · rw [if_neg hpar]
      cases hfp : blocksFind? bs b.parent with
      | none => exact ⟨false, rfl⟩
      | some pb => exact ⟨_, rfl⟩

theorem updateHighQc_frame (st : Store) (qc : QC) :
    (updateHighQc st qc).1.blocks = st.blocks ∧
    (updateHighQc st qc).1.lockedBlocks = st.lockedBlocks ∧
    (updateHighQc st qc).1.lastExecuted = st.lastExecuted ∧
    (updateHighQc st qc).1.substates = st.substates ∧
    (updateHighQc st qc).1.blockDiffs = st.blockDiffs := by
  unfold updateHighQc
  cases lookupNat st.highQcs qc.epoch with
  | none => simp
  | some h =>
    by_cases hc : h.height < qc.blockHeight
    · simp [if_pos hc]
    · simp [if_neg hc]

theorem isSafe_eval {st : Store} {b : Block} {locked : LockedMarker} {v : Bool}
    (hlk : lockedGet? st b.epoch = some locked)
    (hl : ¬ locked.height < b.justify.blockHeight)
    (hv : extendsB st.blocks b locked.blockId = .ok v) : isSafe st b = .ok v := by
  unfold isSafe
  rw [hlk]
  dsimp only
  rw [if_neg hl, hv]
  cases v <;> rfl

/-- C2: with a LockedBlock marker present for the proposal's epoch,
`Block::is_safe` returns true exactly when the liveness rule (justify QC
height strictly above the locked height) or the safety rule (the proposal
is a proper descendant of the locked block id) holds, and returns false
when neither holds. -/
theorem safeNode_liveness_or_safety (st : Store) (b : Block) (locked : LockedMarker)
    (hlk : lockedGet? st b.epoch = some locked) (hwf : HeightWF st.blocks) :
    (isSafe st b = .ok true ↔
      locked.height < b.justify.blockHeight ∨ ProperDesc st.blocks b locked.blockId) ∧
    (¬(locked.height < b.justify.blockHeight ∨ ProperDesc st.blocks b locked.blockId) →
      isSafe st b = .ok false) := by
  obtain ⟨v, hv⟩ := extendsB_total st.blocks b locked.blockId
  by_cases hl : locked.height < b.justify.blockHeight
  · have he : isSafe st b = .ok true := by
      unfold isSafe
      rw [hlk]
      dsimp only
      rw [if_pos hl]
    rw [he]
    exact ⟨⟨fun _ => Or.inl hl, fun _ => rfl⟩, fun h => absurd (Or.inl hl) h⟩
  · have he := isSafe_eval hlk hl hv
    rw [he]
    cases v with
    | true =>
      have hp := (extendsB_iff hwf b locked.blockId).mp hv
      exact ⟨⟨fun _ => Or.inr hp, fun _ => rfl⟩, fun h => absurd (Or.inr hp) h⟩
    | false =>
      have hnp : ¬ ProperDesc st.blocks b locked.blockId := by
        intro hp
        have hx := (extendsB_iff hwf b locked.blockId).mpr hp
        rw [hv] at hx
        simp at hx
      constructor
      · constructor
        · intro h; simp at h
        · intro h
          rcases h with h | h
          · exact absurd h hl
          · exact absurd h hnp
      · intro _; rfl

/-- Block used by the safeNode witness: height 1, stored parent of the
proposal. -/
def wSafeParent : Block :=
  ⟨1, 0, 1, 0, 0, ⟨9, 0, 0, 0⟩, false, [], false, false⟩

/-- Proposal used by the safeNode witness: child of `wSafeParent` whose
justify QC is at height 1. -/
def wSafeProp : Block :=
  ⟨2, 1, 2, 0, 0, ⟨8, 1, 1, 0⟩, false, [], false, false⟩

/-- Store used by the safeNode witness: one stored block and a locked
marker at height 1 for epoch 0. -/
def wSafeSt : Store :=
  ⟨[wSafeParent], [(0, ⟨1, 1⟩)], none, [], [], [], [], [], [], [], [], []⟩

theorem safeNode_liveness_or_safety_witness :
    (lockedGet? wSafeSt wSafeProp.epoch = some ⟨1, 1⟩ ∧ HeightWF wSafeSt.blocks) ∧
    ((isSafe wSafeSt wSafeProp = .ok true ↔
        (1 : Nat) < wSafeProp.justify.blockHeight ∨
          ProperDesc wSafeSt.blocks wSafeProp 1) ∧
      (¬((1 : Nat) < wSafeProp.justify.blockHeight ∨
          ProperDesc wSafeSt.blocks wSafeProp 1) →
        isSafe wSafeSt wSafeProp = .ok false)) :=
  ⟨⟨by decide, by decide⟩,
    safeNode_liveness_or_safety wSafeSt wSafeProp ⟨1, 1⟩ (by decide) (by decide)⟩

/-- C9: `Block::extends` returns false when the queried ancestor is the
block's own id; returns true when the queried ancestor is its parent id
(and not its own id); returns `Ok(false)` — not an error — when its
parent is absent from the store (and the ancestor is neither its id nor
its parent); consequently a proposal whose id equals the locked block id
fails the safeNode safety-rule check. -/
theorem extends_self_parent_absent (bs : List Block) (b : Block) (anc : Nat)
    (st : Store) (locked : LockedMarker) :
    extendsB bs b b.id = .ok false ∧
    (b.id ≠ anc → b.parent = anc → extendsB bs b anc = .ok true) ∧
    (b.id ≠ anc → b.parent ≠ anc → blocksFind? bs b.parent = none →
      extendsB bs b anc = .ok false) ∧
    (lockedGet? st b.epoch = some locked → b.id = locked.blockId →
      extendsB st.blocks b locked.blockId = .ok false) := by
  refine ⟨?_, ?_, ?_, ?_⟩
  · unfold extendsB
    rw [if_pos rfl]
  · intro hid hpar
    unfold extendsB
    rw [if_neg hid, if_pos hpar]
  · intro hid hpar habs
    unfold extendsB
    rw [if_neg hid, if_neg hpar, habs]
  · intro _ hid
    unfold extendsB
    rw [if_pos hid]

/-- Block used by the extends witness with its parent stored. -/
def wExtChild : Block :=
  ⟨2, 1, 1, 0, 0, ⟨9, 0, 0, 0⟩, false, [], false, false⟩

/-- Block used by the extends witness whose parent id 9 is not stored. -/
def wExtOrphan : Block :=
  ⟨3, 9, 1, 0, 0, ⟨9, 0, 0, 0⟩, false, [], false, false⟩

/-- Block used by the extends witness whose id equals the locked id. -/
def wExtLockedSelf : Block :=
  ⟨7, 4, 3, 0, 0, ⟨9, 0, 0, 0⟩, false, [], false, false⟩

/-- Store used by the extends witness: a locked marker at id 7 for epoch 0. -/
def wExtSt : Store :=
  ⟨[wExtChild], [(0, ⟨7, 3⟩)], none, [], [], [], [], [], [], [], [], []⟩

theorem extends_self_parent_absent_witness :
    extendsB [wExtChild] wExtChild wExtChild.id = .ok false ∧
    extendsB [wExtChild] wExtChild 1 = .ok true ∧
    extendsB [wExtChild] wExtOrphan 5 = .ok false ∧
    extendsB wExtSt.blocks wExtLockedSelf 7 = .ok false :=
  ⟨(extends_self_parent_absent [wExtChild] wExtChild 1 wExtSt ⟨7, 3⟩).1,
    (extends_self_parent_absent [wExtChild] wExtChild 1 wExtSt ⟨7, 3⟩).2.1
      (by decide) (by decide),
    (extends_self_parent_absent [wExtChild] wExtOrphan 5 wExtSt ⟨7, 3⟩).2.2.1
      (by decide) (by decide) (by decide),
    (extends_self_parent_absent wExtSt.blocks wExtLockedSelf 7 wExtSt ⟨7, 3⟩).2.2.2
      (by decide) (by decide)⟩

theorem lookupNat_filter_ne {α : Type} (l : List (Nat × α)) (id : Nat) :
    lookupNat (l.filter (fun e => e.1 != id)) id = none := by
  unfold lookupNat
  rw [List.find?_eq_none.mpr]
  · rfl
  · intro x hx
    have := (List.mem_filter.mp hx).2
    simp only [bne_iff_ne, ne_eq] at this
    simp [this]

theorem substateCreate_shape (st : Store) (r : SubstateRec) :
    substateCreate st r = .error .queryError ∨
    ∃ st2, substateCreate st r = .ok st2 ∧ st2.blockDiffs = st.blockDiffs := by
  unfold substateCreate
  cases hc : st.substates.any (fun s =>
      s.substateId == r.substateId && s.version == r.version) with
  | true => left; simp
  | false =>
    right
    refine ⟨{ st with substates := st.substates ++ [r] }, by simp, rfl⟩

theorem substateDestroy_shape (st : Store) (sid ver txId : Nat) :
    substateDestroy st sid ver txId = .error .notFound ∨
    ∃ st2, substateDestroy st sid ver txId = .ok st2 ∧ st2.blockDiffs = st.blockDiffs := by
  unfold substateDestroy
  cases hc : st.substates.find? (fun s =>
      s.substateId == sid && s.version == ver && s.destroyed.isNone) with
  | none => left; rfl
  | some s => right; exact ⟨_, rfl, rfl⟩

theorem applyChanges_blockDiffs {b : Block} :
    ∀ (cs : List Change) (st st2 : Store), applyChanges b st cs = .ok st2 →
      st2.blockDiffs = st.blockDiffs := by
  intro cs
  induction cs with
  | nil =>
    intro st st2 h
    have h2 : Except.ok st = Except.ok st2 := h
    cases h2
    rfl
  | cons c rest ih =>
    intro st st2 h
    cases c with
    | up sid ver shard txId value =>
      rcases substateCreate_shape st
          ⟨sid, ver, value, shard, b.epoch, b.height, b.id, txId, b.justify.qcId, none⟩ with
        hc | ⟨stA, hc, hbd⟩
      · have h2 : (Except.error SErr.queryError : Except SErr Store) = .ok st2 := by
          unfold applyChanges at h
          rwa [hc] at h
        cases h2
      · unfold applyChanges at h
        rw [hc] at h
        have h2 : applyChanges b stA rest = .ok st2 := h
        rw [ih stA st2 h2, hbd]
    | down sid ver shard txId =>
      rcases substateDestroy_shape st sid ver txId with hc | ⟨stA, hc, hbd⟩
      · have h2 : (Except.error SErr.notFound : Except SErr Store) = .ok st2 := by
          unfold applyChanges at h
          rwa [hc] at h
        cases h2
      · unfold applyChanges at h
        rw [hc] at h
        have h2 : applyChanges b stA rest = .ok st2 := h
        rw [ih stA st2 h2, hbd]

/-- C7: `commit_diff` on a dummy block rejects every non-empty diff with
an error, and commits a matching empty diff without altering any
substate (only the committed flag is set). -/
theorem dummy_block_commit_diff (st : Store) (b : Block) (d : BlockDiffR)
    (hd : b.isDummy = true) :
    (d.changes ≠ [] → ∃ e, commitDiff st b d = .error e) ∧
    (d.blockId = b.id → d.changes = [] →
      commitDiff st b d = .ok (blocksSetCommitted st b.id) ∧
      (blocksSetCommitted st b.id).substates = st.substates) := by
  constructor
  · intro hne
    by_cases hbid : d.blockId ≠ b.id
    · exact ⟨.queryError, by unfold commitDiff; rw [if_pos hbid]⟩
    · refine ⟨.queryError, ?_⟩
      have hie : ¬ (d.changes.isEmpty = true) := by
        simp [List.isEmpty_iff]
        exact hne
      unfold commitDiff
      rw [if_neg hbid, if_pos ⟨hd, hie⟩]
  · intro hbid hch
    refine ⟨?_, rfl⟩
    have hcond : ¬ (b.isDummy = true ∧ ¬ (d.changes.isEmpty = true)) := by
      simp [hch]
    unfold commitDiff
    rw [if_neg (by simp [hbid]), if_neg hcond, if_pos hd, hch]
    rfl

/-- C4 (amended): once `commit_diff(B, D)` has succeeded, a second call
with the same block and diff fails for non-dummy blocks with a `NotFound`
storage error raised while removing the already-removed stored diff
(before any substate or flag mutation), while for dummy blocks the second
call succeeds again; no dedicated AlreadyCommitted error kind exists. -/
theorem commit_diff_twice (st st1 : Store) (b : Block) (d : BlockDiffR)
    (h1 : commitDiff st b d = .ok st1) :
    (b.isDummy = false → commitDiff st1 b d = .error .notFound) ∧
    (b.isDummy = true → commitDiff st1 b d = .ok (blocksSetCommitted st1 b.id)) := by
  by_cases hbid : d.blockId ≠ b.id
  · unfold commitDiff at h1
    rw [if_pos hbid] at h1
    cases h1
  · constructor
    · intro hnd
      have hcond : ¬ (b.isDummy = true ∧ ¬ (d.changes.isEmpty = true)) := by
        simp [hnd]
      have hndc : ¬ (b.isDummy = true) := by simp [hnd]
      unfold commitDiff at h1 ⊢
      rw [if_neg hbid, if_neg hcond, if_neg hndc] at h1 ⊢
      cases hbr : blockDiffsRemove st b.id with
      | error e =>
        rw [hbr] at h1
        have h2 : (Except.error e : Except SErr Store) = .ok st1 := h1
        cases h2
      | ok stA =>
        rw [hbr] at h1
        have h2 : (applyChanges b stA d.changes >>= fun st2 =>
            Except.ok (blocksSetCommitted st2 b.id)) = .ok st1 := h1
        cases hac : applyChanges b stA d.changes with
        | error e =>
          rw [hac] at h2
          have h3 : (Except.error e : Except SErr Store) = .ok st1 := h2
          cases h3
        | ok st2 =>
          rw [hac] at h2
          have h3 : Except.ok (blocksSetCommitted st2 b.id) = Except.ok st1 := h2
          have hst1 : st1 = blocksSetCommitted st2 b.id := by cases h3; rfl
          have hA : stA.blockDiffs = st.blockDiffs.filter (fun e => e.1 != b.id) := by
            unfold blockDiffsRemove at hbr
            cases hlk : lookupNat st.blockDiffs b.id with
            | none => rw [hlk] at hbr; cases hbr
            | some v =>
              rw [hlk] at hbr
              cases hbr
              rfl
          have h1bd : st1.blockDiffs = stA.blockDiffs := by
            rw [hst1]
            show st2.blockDiffs = stA.blockDiffs
            exact applyChanges_blockDiffs d.changes stA st2 hac
          have hnone : lookupNat st1.blockDiffs b.id = none := by
            rw [h1bd, hA]
            exact lookupNat_filter_ne _ _
          have hbr2 : blockDiffsRemove st1 b.id = .error .notFound := by
            unfold blockDiffsRemove
            rw [hnone]
          rw [hbr2]
          rfl
    · intro hdm
      unfold commitDiff at h1 ⊢
      rw [if_neg hbid] at h1 ⊢
      by_cases hne : d.changes.isEmpty = true
      · have hcond : ¬ (b.isDummy = true ∧ ¬ (d.changes.isEmpty = true)) := by
          simp [hne]
        have hch : d.changes = [] := List.isEmpty_iff.mp hne
        rw [if_neg hcond, if_pos hdm, hch]
        rfl
      · rw [if_pos ⟨hdm, hne⟩] at h1
        cases h1

/-- Empty store used by the concrete examples. -/
def emptyStore : Store := ⟨[], [], none, [], [], [], [], [], [], [], [], []⟩

/-- Dummy block used by the commit-diff examples. -/
def cxDummyB : Block := ⟨1, 0, 1, 0, 0, ⟨0, 0, 0, 0⟩, true, [], false, false⟩

/-- Empty diff for block 1. -/
def cxEmptyDiff : BlockDiffR := ⟨1, []⟩

/-- Non-empty diff for block 1. -/
def cxDiffNE : BlockDiffR := ⟨1, [.up 5 0 0 7 9]⟩

/-- Counterexample to C4 as stated: for a dummy block with an empty diff,
`commit_diff` succeeds a second time (returning `Ok`, not an
`AlreadyCommitted` error). -/
theorem commit_diff_twice_counterexample :
    commitDiff emptyStore cxDummyB cxEmptyDiff = .ok (blocksSetCommitted emptyStore 1) ∧
    commitDiff (blocksSetCommitted emptyStore 1) cxDummyB cxEmptyDiff =
      .ok (blocksSetCommitted (blocksSetCommitted emptyStore 1) 1) :=
  ⟨by decide, by decide⟩

/-- Non-dummy block used by the commit-diff witness. -/
def cxNdB : Block := ⟨2, 0, 1, 0, 0, ⟨0, 0, 0, 0⟩, false, [], false, false⟩

/-- Empty diff for block 2. -/
def cxNdDiff : BlockDiffR := ⟨2, []⟩

/-- Store with a stored (empty) diff for block 2. -/
def cxStWithDiff : Store := ⟨[], [], none, [], [], [(2, [])], [], [], [], [], [], []⟩

/-- Result of the first `commit_diff` call of the witness. -/
def cxSt1 : Store :=
  blocksSetCommitted ⟨[], [], none, [], [], [], [], [], [], [], [], []⟩ 2

theorem commit_diff_twice_witness :
    commitDiff cxStWithDiff cxNdB cxNdDiff = .ok cxSt1 ∧
    commitDiff cxSt1 cxNdB cxNdDiff = .error .notFound :=
  ⟨by decide, (commit_diff_twice cxStWithDiff cxSt1 cxNdB cxNdDiff (by decide)).1 (by decide)⟩

theorem dummy_block_commit_diff_witness :
    (∃ e, commitDiff emptyStore cxDummyB cxDiffNE = .error e) ∧
    (commitDiff emptyStore cxDummyB cxEmptyDiff = .ok (blocksSetCommitted emptyStore 1) ∧
      (blocksSetCommitted emptyStore 1).substates = emptyStore.substates) :=
  ⟨(dummy_block_commit_diff emptyStore cxDummyB cxDiffNE (by decide)).1 (by decide),
    (dummy_block_commit_diff emptyStore cxDummyB cxEmptyDiff (by decide)).2
      (by decide) (by decide)⟩

/-- C10: when the prepared node (the block referenced by the justified
node's justify QC) is a genesis block, `update_nodes` returns right after
updating HighQC: the LockedBlock and LastExecuted markers are unchanged
and neither callback fires. -/
theorem update_nodes_genesis_early_return (st : Store) (b justified prepared : Block)
    (hj : blocksFind? st.blocks b.justify.blockId = some justified)
    (hp : blocksFind? st.blocks justified.justify.blockId = some prepared)
    (hg : prepared.isGenesis = true) :
    updateNodes st b =
      .ok ((updateHighQc st b.justify).1, (updateHighQc st b.justify).2, [], []) ∧
    (updateHighQc st b.justify).1.lockedBlocks = st.lockedBlocks ∧
    (updateHighQc st b.justify).1.lastExecuted = st.lastExecuted := by
  obtain ⟨hb, hlk, hle, -, -⟩ := updateHighQc_frame st b.justify
  refine ⟨?_, hlk, hle⟩
  unfold updateNodes
  dsimp only
  rw [hb, hj]
  dsimp only
  rw [hp]
  dsimp only
  rw [if_pos hg]

/-- Genesis block of the C10 witness (height 0). -/
def wGenG : Block := ⟨1, 0, 0, 0, 0, ⟨0, 0, 0, 0⟩, false, [], false, false⟩

/-- Justified node of the C10 witness, whose justify QC references the
genesis block. -/
def wGenJ : Block := ⟨2, 1, 1, 0, 0, ⟨5, 1, 0, 0⟩, false, [], false, false⟩

/-- Processed block of the C10 witness, whose justify QC references the
justified node. -/
def wGenB : Block := ⟨3, 2, 2, 0, 0, ⟨6, 2, 1, 0⟩, false, [], false, false⟩

/-- Store of the C10 witness. -/
def wGenSt : Store :=
  ⟨[wGenG, wGenJ], [(0, ⟨9, 9⟩)], some ⟨9, 9⟩, [], [], [], [], [], [], [], [], []⟩

theorem update_nodes_genesis_early_return_witness :
    updateNodes wGenSt wGenB =
      .ok ((updateHighQc wGenSt wGenB.justify).1, (updateHighQc wGenSt wGenB.justify).2,
        [], []) ∧
    (updateHighQc wGenSt wGenB.justify).1.lockedBlocks = wGenSt.lockedBlocks ∧
    (updateHighQc wGenSt wGenB.justify).1.lastExecuted = wGenSt.lastExecuted :=
  update_nodes_genesis_early_return wGenSt wGenB wGenJ wGenG
    (by decide) (by decide) (by decide)

theorem exc_bind_ok {α β : Type} (a : α) (f : α → Except SErr β) :
    ((Except.ok a : Except SErr α) >>= f) = f a := rfl

theorem exc_bind_error {α β : Type} (e : SErr) (f : α → Except SErr β) :
    ((Except.error e : Except SErr α) >>= f) = .error e := rfl

theorem head?_append_ne {α : Type} (xs ys : List α) (h : xs ≠ []) :
    (xs ++ ys).head? = xs.head? := by
  cases xs with
  | nil => exact absurd rfl h
  | cons a t => rfl

theorem ascChain_step {bs : List Block} {h : Nat} {b p : Block} {l₁ : List Block}
    (hAC : AscChain bs h b ((l₁ ++ [p]) ++ [b])) :
    AscChain bs h p (l₁ ++ [p]) ∧ getParentB bs b = .ok p ∧ p.height < b.height := by
  obtain ⟨hne, hlast, hmem, hchain, hstop⟩ := hAC
  rw [List.chain'_append] at hchain
  obtain ⟨hc1, -, h3⟩ := hchain
  have hlink := h3 p (by simp [List.getLast?_concat]) b rfl
  refine ⟨⟨by simp, List.getLast?_concat l₁, ?_, hc1, ?_⟩, hlink.1, hlink.2⟩
  · intro x hx
    exact hmem x (List.mem_append_left _ hx)
  · rwa [head?_append_ne (l₁ ++ [p]) [b] (by simp)] at hstop

theorem ascChain_base {bs : List Block} {h : Nat} {b : Block}
    (hAC : AscChain bs h b [b]) :
    h < b.height ∧ ∃ p, getParentB bs b = .ok p ∧ p.height ≤ h := by
  obtain ⟨-, -, hmem, -, hstop⟩ := hAC
  refine ⟨hmem b (by simp), ?_⟩
  unfold stopBelowB at hstop
  simp only [List.head?_cons] at hstop
  cases hgp : getParentB bs b with
  | error e => rw [hgp] at hstop; cases hstop
  | ok p =>
    rw [hgp] at hstop
    exact ⟨p, rfl, by simpa using hstop⟩

theorem ascChain_top_mem {bs : List Block} {h : Nat} {b : Block} {l : List Block}
    (hAC : AscChain bs h b l) : h < b.height := by
  obtain ⟨hne, hlast, hmem, -, -⟩ := hAC
  have hb : b ∈ l := by
    rcases l.eq_nil_or_concat with rfl | ⟨L, a, hl⟩
    · cases hlast
    · rw [List.concat_eq_append] at hl
      subst hl
      rw [List.getLast?_concat] at hlast
      cases hlast
      simp
  exact hmem b hb

theorem ascChain_onLocked {bs : List Block} {h : Nat} :
    ∀ (l : List Block) (b : Block) (fuel : Nat), AscChain bs h b l →
      b.height < fuel → onLockedBlockRecurse fuel bs h b = .ok l := by
  intro l
  induction l using List.reverseRecOn with
  | nil => intro b fuel hAC _; exact absurd rfl hAC.1
  | append_singleton l₀ x ih =>
    intro b fuel hAC hfuel
    have hxb : x = b := by
      have := hAC.2.1
      rw [List.getLast?_concat] at this
      exact Option.some_inj.mp this
    subst hxb
    obtain ⟨f, rfl⟩ : ∃ f, fuel = f + 1 := ⟨fuel - 1, by omega⟩
    have hhx : h < x.height := ascChain_top_mem hAC
    unfold onLockedBlockRecurse
    rw [if_pos hhx]
    rcases l₀.eq_nil_or_concat with rfl | ⟨l₁, p, hl⟩
    · obtain ⟨-, ⟨p, hgp, hple⟩⟩ := ascChain_base (by simpa using hAC)
      rw [hgp]
      simp only [exc_bind_ok]
      obtain ⟨g, rfl⟩ : ∃ g, f = g + 1 := ⟨f - 1, by omega⟩
      have hrec : onLockedBlockRecurse (g + 1) bs h p = .ok [] := by
        unfold onLockedBlockRecurse
        rw [if_neg (by omega)]
      rw [hrec]
      rfl
    · rw [List.concat_eq_append] at hl
      subst hl
      obtain ⟨hAC0, hgp, hph⟩ := ascChain_step hAC
      rw [hgp]
      simp only [exc_bind_ok]
      rw [ih p f hAC0 (by omega)]
      rfl

theorem ascChain_onCommit {bs : List Block} {h : Nat} :
    ∀ (l : List Block) (b : Block) (fuel : Nat), AscChain bs h b l →
      b.height < fuel → onCommitBlockRecurse fuel bs h b = .ok l := by
  intro l
  induction l using List.reverseRecOn with
  | nil => intro b fuel hAC _; exact absurd rfl hAC.1
  | append_singleton l₀ x ih =>
    intro b fuel hAC hfuel
    have hxb : x = b := by
      have := hAC.2.1
      rw [List.getLast?_concat] at this
      exact Option.some_inj.mp this
    subst hxb
    obtain ⟨f, rfl⟩ : ∃ f, fuel = f + 1 := ⟨fuel - 1, by omega⟩
    have hhx : h < x.height := ascChain_top_mem hAC
    unfold onCommitBlockRecurse
    rw [if_pos hhx]
    rcases l₀.eq_nil_or_concat with rfl | ⟨l₁, p, hl⟩
    · obtain ⟨-, ⟨p, hgp, hple⟩⟩ := ascChain_base (by simpa using hAC)
      rw [hgp]
      simp only [exc_bind_ok]
      obtain ⟨g, rfl⟩ : ∃ g, f = g + 1 := ⟨f - 1, by omega⟩
      have hrec : onCommitBlockRecurse (g + 1) bs h p = .ok [] := by
        unfold onCommitBlockRecurse
        rw [if_neg (by omega)]
      rw [hrec]
      rfl
    · rw [List.concat_eq_append] at hl
      subst hl
      obtain ⟨hAC0, hgp, hph⟩ := ascChain_step hAC
      rw [hgp]
      simp only [exc_bind_ok]
      rw [ih p f hAC0 (by omega)]
      rfl

theorem lookupNat_setAssoc_self {α : Type} (l : List (Nat × α)) (k : Nat) (v : α) :
    lookupNat (setAssoc l k v) k = some v := by
  simp [lookupNat, setAssoc, List.find?_cons]

theorem lockStep_pos (st : Store) (locked : LockedMarker) (prepared : Block)
    (l : List Block) (hlt : locked.height < prepared.height)
    (hAC : AscChain st.blocks locked.height prepared l) :
    lockStep st locked prepared = .ok (setLockedFrom st prepared, l) := by
  unfold lockStep
  rw [if_pos hlt,
    ascChain_onLocked l prepared (prepared.height + 1) hAC (by omega)]
  rfl

theorem lockStep_neg (st : Store) (locked : LockedMarker) (prepared : Block)
    (hlt : ¬ locked.height < prepared.height) :
    lockStep st locked prepared = .ok (st, []) := by
  unfold lockStep
  rw [if_neg hlt]

theorem lockStep_frame (st st2 : Store) (locked : LockedMarker) (prepared : Block)
    (lf : List Block) (h : lockStep st locked prepared = .ok (st2, lf)) :
    st2.blocks = st.blocks ∧ st2.lastExecuted = st.lastExecuted := by
  unfold lockStep at h
  by_cases hlt : locked.height < prepared.height
  · rw [if_pos hlt] at h
    cases hr : onLockedBlockRecurse (prepared.height + 1) st.blocks locked.height prepared with
    | error e =>
      rw [hr] at h
      have h2 : (Except.error e : Except SErr (Store × List Block)) = .ok (st2, lf) := h
      cases h2
    | ok fired =>
      rw [hr] at h
      simp only [exc_bind_ok] at h
      cases h
      exact ⟨rfl, rfl⟩
  · rw [if_neg hlt] at h
    cases h
    exact ⟨rfl, rfl⟩

theorem commitStep_pos (st : Store) (justified prepared cb : Block) (le : LastExec)
    (l : List Block)
    (hcg1 : justified.parent = prepared.id)
    (hcg2 : prepared.parent = prepared.justify.blockId)
    (hnz : prepared.justify.blockId ≠ 0)
    (hcb : blocksFind? st.blocks prepared.justify.blockId = some cb)
    (hle : st.lastExecuted = some le)
    (hAC : AscChain st.blocks le.height cb l) :
    commitStep st justified prepared = .ok (setLastExecutedFrom st cb, l) := by
  unfold commitStep
  rw [if_pos ⟨hcg1, hcg2⟩, if_neg hnz, hcb]
  dsimp only
  rw [hle]
  dsimp only
  rw [ascChain_onCommit l cb (cb.height + 1) hAC (by omega)]
  rfl

theorem commitStep_neg (st : Store) (justified prepared : Block)
    (hncg : ¬(justified.parent = prepared.id ∧
      prepared.parent = prepared.justify.blockId)) :
    commitStep st justified prepared = .ok (st, []) := by
  unfold commitStep
  rw [if_neg hncg]

theorem commitStep_frame (st st3 : Store) (justified prepared : Block)
    (cf : List Block) (h : commitStep st justified prepared = .ok (st3, cf)) :
    st3.lockedBlocks = st.lockedBlocks ∧ st3.blocks = st.blocks := by
  unfold commitStep at h
  by_cases hcg : justified.parent = prepared.id ∧
      prepared.parent = prepared.justify.blockId
  · rw [if_pos hcg] at h
    by_cases hz : prepared.justify.blockId = 0
    · rw [if_pos hz] at h
      cases h
      exact ⟨rfl, rfl⟩
    · rw [if_neg hz] at h
      cases hcb : blocksFind? st.blocks prepared.justify.blockId with
      | none =>
        rw [hcb] at h
        have h2 : (Except.error SErr.notFound :
          Except SErr (Store × List Block)) = .ok (st3, cf) := h
        cases h2
      | some cb =>
        rw [hcb] at h
        dsimp only at h
        cases hle : st.lastExecuted with
        | none =>
          rw [hle] at h
          have h2 : (Except.error SErr.notFound :
            Except SErr (Store × List Block)) = .ok (st3, cf) := h
          cases h2
        | some le =>
          rw [hle] at h
          dsimp only at h
          cases hr : onCommitBlockRecurse (cb.height + 1) st.blocks le.height cb with
          | error e =>
            rw [hr] at h
            have h2 : (Except.error e :
              Except SErr (Store × List Block)) = .ok (st3, cf) := h
            cases h2
          | ok fired =>
            rw [hr] at h
            simp only [exc_bind_ok] at h
            cases h
            exact ⟨rfl, rfl⟩
  · rw [if_neg hcg] at h
    cases h
    exact ⟨rfl, rfl⟩

theorem updateNodes_eval (st : Store) (b justified prepared : Block)
    (locked : LockedMarker) (st2 st3 : Store) (lf cf : List Block)
    (hj : blocksFind? st.blocks b.justify.blockId = some justified)
    (hp : blocksFind? st.blocks justified.justify.blockId = some prepared)
    (hng : prepared.isGenesis = false)
    (hlk : lockedGet? st b.epoch = some locked)
    (hls : lockStep (updateHighQc st b.justify).1 locked prepared = .ok (st2, lf))
    (hcs : commitStep st2 justified prepared = .ok (st3, cf)) :
    updateNodes st b = .ok (st3, (updateHighQc st b.justify).2, lf, cf) := by
  obtain ⟨hb, hlkf, hle, -, -⟩ := updateHighQc_frame st b.justify
  unfold updateNodes
  dsimp only
  rw [hb, hj]
  dsimp only
  rw [hp]
  dsimp only
  rw [if_neg (by simp [hng])]
  have hlk1 : lockedGet? (updateHighQc st b.justify).1 b.epoch = some locked := by
    unfold lockedGet?
    rw [hlkf]
    exact hlk
  rw [hlk1]
  dsimp only
  rw [hls]
  simp only [exc_bind_ok]
  rw [hcs]
  simp only [exc_bind_ok]

/-- C1: in `update_nodes`, with the justified node `b''` and the
prepared node `b'` resolved and not genesis, if the 3-chain is contiguous
(`b''.parent = b'.id` and `b'.parent` is the block referenced by
`b'.justify`, a stored non-zero block `b`), then `on_commit_block` fires
exactly on the ascending parent chain strictly above the current
LastExecuted height up to and including `b`, and the LastExecuted marker
is set to `b`; if the 3-chain is not contiguous, no commit callback fires
and LastExecuted is unchanged. -/
theorem update_nodes_commit_rule (st st2 : Store) (b justified prepared : Block)
    (locked : LockedMarker) (lf : List Block)
    (hj : blocksFind? st.blocks b.justify.blockId = some justified)
    (hp : blocksFind? st.blocks justified.justify.blockId = some prepared)
    (hng : prepared.isGenesis = false)
    (hlk : lockedGet? st b.epoch = some locked)
    (hls : lockStep (updateHighQc st b.justify).1 locked prepared = .ok (st2, lf)) :
    (∀ (cb : Block) (le : LastExec) (l : List Block),
      justified.parent = prepared.id →
      prepared.parent = prepared.justify.blockId →
      prepared.justify.blockId ≠ 0 →
      blocksFind? st.blocks prepared.justify.blockId = some cb →
      st.lastExecuted = some le →
      AscChain st.blocks le.height cb l →
      updateNodes st b =
        .ok (setLastExecutedFrom st2 cb, (updateHighQc st b.justify).2, lf, l) ∧
      (setLastExecutedFrom st2 cb).lastExecuted = some ⟨cb.id, cb.height⟩) ∧
    (¬(justified.parent = prepared.id ∧
        prepared.parent = prepared.justify.blockId) →
      updateNodes st b = .ok (st2, (updateHighQc st b.justify).2, lf, []) ∧
      st2.lastExecuted = st.lastExecuted) := by
  obtain ⟨hfb, -, hfle, -, -⟩ := updateHighQc_frame st b.justify
  obtain ⟨hb2, hle2⟩ := lockStep_frame _ _ _ _ _ hls
  have hb2s : st2.blocks = st.blocks := hb2.trans hfb
  have hle2s : st2.lastExecuted = st.lastExecuted := hle2.trans hfle
  constructor
  · intro cb le l h1 h2 h3 hcb hle hAC
    have hcs := commitStep_pos st2 justified prepared cb le l h1 h2 h3
      (by rw [hb2s]; exact hcb) (by rw [hle2s]; exact hle) (by rw [hb2s]; exact hAC)
    exact ⟨updateNodes_eval st b justified prepared locked st2 _ lf l
      hj hp hng hlk hls hcs, rfl⟩
  · intro hncg
    have hcs := commitStep_neg st2 justified prepared hncg
    exact ⟨updateNodes_eval st b justified prepared locked st2 st2 lf []
      hj hp hng hlk hls hcs, hle2s⟩

/-- C8: in `update_nodes`, when the prepared node `b'` sits strictly
above the current LockedBlock height, `on_lock_block` fires exactly on
the ascending parent chain strictly above the locked height up to and
including `b'`, and the LockedBlock marker is set to `b'`; otherwise no
lock callback fires and the LockedBlock marker is unchanged. -/
theorem update_nodes_lock_rule (st : Store) (b justified prepared : Block)
    (locked : LockedMarker)
    (hj : blocksFind? st.blocks b.justify.blockId = some justified)
    (hp : blocksFind? st.blocks justified.justify.blockId = some prepared)
    (hng : prepared.isGenesis = false)
    (hlk : lockedGet? st b.epoch = some locked) :
    (∀ (l : List Block) (st3 : Store) (cf : List Block),
      locked.height < prepared.height →
      AscChain st.blocks locked.height prepared l →
      commitStep (setLockedFrom (updateHighQc st b.justify).1 prepared)
          justified prepared = .ok (st3, cf) →
      updateNodes st b = .ok (st3, (updateHighQc st b.justify).2, l, cf) ∧
      lockedGet? st3 prepared.epoch = some ⟨prepared.id, prepared.height⟩) ∧
    (∀ (st3 : Store) (cf : List Block),
      ¬ locked.height < prepared.height →
      commitStep (updateHighQc st b.justify).1 justified prepared = .ok (st3, cf) →
      updateNodes st b = .ok (st3, (updateHighQc st b.justify).2, [], cf) ∧
      lockedGet? st3 b.epoch = some locked) := by
  obtain ⟨hfb, hflk, -, -, -⟩ := updateHighQc_frame st b.justify
  constructor
  · intro l st3 cf hlt hAC hcs
    have hls := lockStep_pos (updateHighQc st b.justify).1 locked prepared l hlt
      (by rw [hfb]; exact hAC)
    refine ⟨updateNodes_eval st b justified prepared locked _ st3 l cf
      hj hp hng hlk hls hcs, ?_⟩
    obtain ⟨hclk, -⟩ := commitStep_frame _ _ _ _ _ hcs
    unfold lockedGet?
    rw [hclk]
    show lookupNat (setAssoc (updateHighQc st b.justify).1.lockedBlocks
      prepared.epoch ⟨prepared.id, prepared.height⟩) prepared.epoch = _
    rw [lookupNat_setAssoc_self]
  · intro st3 cf hlt hcs
    have hls := lockStep_neg (updateHighQc st b.justify).1 locked prepared hlt
    refine ⟨updateNodes_eval st b justified prepared locked _ st3 [] cf
      hj hp hng hlk hls hcs, ?_⟩
    obtain ⟨hclk, -⟩ := commitStep_frame _ _ _ _ _ hcs
    unfold lockedGet?
    rw [hclk, hflk]
    exact hlk

/-- Lowest block of the 3-chain witness (the stored block below the
commit node). -/
def wChainG : Block := ⟨1, 0, 1, 0, 0, ⟨9, 0, 0, 0⟩, false, [], false, false⟩

/-- Commit node `b` of the 3-chain witness. -/
def wChainCB : Block := ⟨2, 1, 2, 0, 0, ⟨10, 1, 1, 0⟩, false, [], false, false⟩

/-- Prepared node `b'` of the 3-chain witness. -/
def wChainP : Block := ⟨3, 2, 3, 0, 0, ⟨11, 2, 2, 0⟩, false, [], false, false⟩

/-- Justified node `b''` of the 3-chain witness. -/
def wChainJ : Block := ⟨4, 3, 4, 0, 0, ⟨12, 3, 3, 0⟩, false, [], false, false⟩

/-- Processed block `b*` of the 3-chain witness. -/
def wChainB : Block := ⟨5, 4, 5, 0, 0, ⟨13, 4, 4, 0⟩, false, [], false, false⟩

/-- Store of the 3-chain witness: locked at height 2, last executed at
height 1. -/
def wChainSt : Store :=
  ⟨[wChainG, wChainCB, wChainP, wChainJ], [(0, ⟨2, 2⟩)], some ⟨1, 1⟩,
    [], [], [], [], [], [], [], [], []⟩

/-- Store of the 3-chain witness after the HighQC update. -/
def wChainSt1 : Store := (updateHighQc wChainSt wChainB.justify).1

/-- Store of the 3-chain witness after the lock rule fired. -/
def wChainSt2 : Store := setLockedFrom wChainSt1 wChainP

theorem update_nodes_commit_rule_witness :
    updateNodes wChainSt wChainB =
      .ok (setLastExecutedFrom wChainSt2 wChainCB,
        (updateHighQc wChainSt wChainB.justify).2, [wChainP], [wChainCB]) ∧
    (setLastExecutedFrom wChainSt2 wChainCB).lastExecuted =
      some ⟨wChainCB.id, wChainCB.height⟩ :=
  (update_nodes_commit_rule wChainSt wChainSt2 wChainB wChainJ wChainP ⟨2, 2⟩
      [wChainP] (by decide) (by decide) (by decide) (by decide) (by decide)).1
    wChainCB ⟨1, 1⟩ [wChainCB] (by decide) (by decide) (by decide) (by decide)
    (by decide) (by decide)

theorem update_nodes_lock_rule_witness :
    updateNodes wChainSt wChainB =
      .ok (setLastExecutedFrom wChainSt2 wChainCB,
        (updateHighQc wChainSt wChainB.justify).2, [wChainP], [wChainCB]) ∧
    lockedGet? (setLastExecutedFrom wChainSt2 wChainCB) wChainP.epoch =
      some ⟨wChainP.id, wChainP.height⟩ :=
  (update_nodes_lock_rule wChainSt wChainB wChainJ wChainP ⟨2, 2⟩
      (by decide) (by decide) (by decide) (by decide)).1
    [wChainP] (setLastExecutedFrom wChainSt2 wChainCB) [wChainCB]
    (by decide) (by decide) (by decide)

/-- Sequence of `update_nodes` calls threading the store (the fired
lists and returned HighQC of each call are discarded). -/
def updateNodesMulti : Store → List Block → Except SErr Store
  | st, [] => .ok st
  | st, b :: rest =>
    match updateNodes st b with
    | .error e => .error e
    | .ok (st2, _, _, _) => updateNodesMulti st2 rest

theorem updateNodes_blocks_and_locked (st st3 : Store) (b : Block)
    (hq : HighQcM) (lf cf : List Block) (e : Nat)
    (heb : ∀ c ∈ st.blocks, c.epoch = e) (hbe : b.epoch = e)
    (h : updateNodes st b = .ok (st3, hq, lf, cf)) :
    st3.blocks = st.blocks ∧
    (∀ lk, lockedGet? st e = some lk →
      ∃ lk2, lockedGet? st3 e = some lk2 ∧ lk.height ≤ lk2.height) := by
  obtain ⟨hfb, hflk, hfle, -, -⟩ := updateHighQc_frame st b.justify
  unfold updateNodes at h
  dsimp only at h
  cases hj : blocksFind? (updateHighQc st b.justify).1.blocks b.justify.blockId with
  | none => rw [hj] at h; cases h
  | some justified =>
    rw [hj] at h
    dsimp only at h
    cases hp : blocksFind? (updateHighQc st b.justify).1.blocks
        justified.justify.blockId with
    | none => rw [hp] at h; cases h
    | some prepared =>
      rw [hp] at h
      dsimp only at h
      by_cases hg : prepared.isGenesis = true
      · rw [if_pos hg] at h
        cases h
        refine ⟨hfb, ?_⟩
        intro lk hlk
        refine ⟨lk, ?_, le_refl _⟩
        unfold lockedGet? at hlk ⊢
        rw [hflk]
        exact hlk
      · rw [if_neg hg] at h
        cases hlkm : lockedGet? (updateHighQc st b.justify).1 b.epoch with
        | none => rw [hlkm] at h; cases h
        | some locked =>
          rw [hlkm] at h
          dsimp only at h
          cases hls : lockStep (updateHighQc st b.justify).1 locked prepared with
          | error er =>
            rw [hls] at h
            have h2 : (Except.error er :
              Except SErr (Store × HighQcM × List Block × List Block)) =
                .ok (st3, hq, lf, cf) := h
            cases h2
          | ok pr =>
            obtain ⟨st2v, lfv⟩ := pr
            rw [hls] at h
            simp only [exc_bind_ok] at h
            cases hcs : commitStep st2v justified prepared with
            | error er =>
              rw [hcs] at h
              have h2 : (Except.error er :
                Except SErr (Store × HighQcM × List Block × List Block)) =
                  .ok (st3, hq, lf, cf) := h
              cases h2
            | ok pr2 =>
              obtain ⟨st3v, cfv⟩ := pr2
              rw [hcs] at h
              simp only [exc_bind_ok] at h
              cases h
              obtain ⟨hclk, hcb⟩ := commitStep_frame _ _ _ _ _ hcs
              obtain ⟨hlb, hlle⟩ := lockStep_frame _ _ _ _ _ hls
              constructor
              · rw [hcb, hlb, hfb]
              · intro lk hlkst
                have hlkeq : locked = lk := by
                  unfold lockedGet? at hlkm hlkst
                  rw [hflk, hbe, hlkst] at hlkm
                  exact (Option.some_inj.mp hlkm).symm
                have hpm : prepared ∈ (updateHighQc st b.justify).1.blocks :=
                  (blocksFind?_eq_some hp).1
                rw [hfb] at hpm
                have hpe : prepared.epoch = e := heb prepared hpm
                unfold lockStep at hls
                by_cases hlt : locked.height < prepared.height
                · rw [if_pos hlt] at hls
                  cases hr : onLockedBlockRecurse (prepared.height + 1)
                      (updateHighQc st b.justify).1.blocks locked.height prepared with
                  | error er =>
                    rw [hr, exc_bind_error] at hls
                    cases hls
                  | ok fired =>
                    rw [hr] at hls
                    simp only [exc_bind_ok] at hls
                    cases hls
                    refine ⟨⟨prepared.id, prepared.height⟩, ?_, ?_⟩
                    · unfold lockedGet?
                      rw [hclk]
                      show lookupNat (setAssoc
                        (updateHighQc st b.justify).1.lockedBlocks prepared.epoch
                        ⟨prepared.id, prepared.height⟩) e = _
                      rw [hpe]
                      exact lookupNat_setAssoc_self _ _ _
                    · subst hlkeq
                      exact le_of_lt hlt
                · rw [if_neg hlt] at hls
                  cases hls
                  refine ⟨lk, ?_, le_refl _⟩
                  unfold lockedGet? at hlkst ⊢
                  rw [hclk, hflk]
                  exact hlkst

/-- C3 (amended): across every sequence of `update_nodes` calls within
one epoch (every stored block and every processed block of that epoch),
the height recorded in the LockedBlock marker never decreases. -/
theorem locked_monotone_update_nodes_seq (e : Nat) :
    ∀ (cs : List Block) (st stf : Store),
      (∀ c ∈ st.blocks, c.epoch = e) → (∀ c ∈ cs, c.epoch = e) →
      updateNodesMulti st cs = .ok stf →
      ∀ lk, lockedGet? st e = some lk →
        ∃ lk2, lockedGet? stf e = some lk2 ∧ lk.height ≤ lk2.height := by
  intro cs
  induction cs with
  | nil =>
    intro st stf _ _ h lk hlk
    cases h
    exact ⟨lk, hlk, le_refl _⟩
  | cons b rest ih =>
    intro st stf heb hce h lk hlk
    unfold updateNodesMulti at h
    cases hu : updateNodes st b with
    | error er => rw [hu] at h; cases h
    | ok r =>
      obtain ⟨st2, hqv, lfv, cfv⟩ := r
      rw [hu] at h
      dsimp only at h
      obtain ⟨hblocks, hmono⟩ := updateNodes_blocks_and_locked st st2 b hqv lfv cfv e
        heb (hce b (by simp)) hu
      obtain ⟨lk2, hlk2, hle2⟩ := hmono lk hlk
      obtain ⟨lk3, hlk3, hle3⟩ := ih st2 stf (by rw [hblocks]; exact heb)
        (fun c hc => hce c (by simp [hc])) h lk2 hlk2
      exact ⟨lk3, hlk3, le_trans hle2 hle3⟩

/-- Commit node of the LastExecuted counterexample (height 1). -/
def cxLowCB : Block := ⟨1, 0, 1, 0, 0, ⟨20, 0, 0, 0⟩, false, [], false, false⟩

/-- Prepared node of the LastExecuted counterexample (height 2). -/
def cxLowP : Block := ⟨2, 1, 2, 0, 0, ⟨21, 1, 1, 0⟩, false, [], false, false⟩

/-- Justified node of the LastExecuted counterexample (height 3). -/
def cxLowJ : Block := ⟨3, 2, 3, 0, 0, ⟨22, 2, 2, 0⟩, false, [], false, false⟩

/-- Processed block of the LastExecuted counterexample (height 4). -/
def cxLowB : Block := ⟨4, 3, 4, 0, 0, ⟨23, 3, 3, 0⟩, false, [], false, false⟩

/-- Store of the LastExecuted counterexample: LastExecuted is at height
10, far above the 3-chain about to commit. -/
def cxLowSt : Store :=
  ⟨[cxLowCB, cxLowP, cxLowJ], [(0, ⟨9, 10⟩)], some ⟨9, 10⟩,
    [], [], [], [], [], [], [], [], []⟩

/-- Counterexample to C3 as stated: one `update_nodes` call (a sequence
of length one, all blocks in epoch 0) lowers the LastExecuted height
from 10 to 1, because the commit rule sets the marker unconditionally
after the 3-chain check. -/
theorem last_executed_decreases_counterexample :
    cxLowSt.lastExecuted = some ⟨9, 10⟩ ∧
    updateNodes cxLowSt cxLowB =
      .ok (setLastExecutedFrom (updateHighQc cxLowSt cxLowB.justify).1 cxLowCB,
        (updateHighQc cxLowSt cxLowB.justify).2, [], []) ∧
    (setLastExecutedFrom (updateHighQc cxLowSt cxLowB.justify).1 cxLowCB).lastExecuted =
      some ⟨1, 1⟩ ∧ (1 : Nat) < 10 :=
  ⟨by decide, by decide, by decide, by decide⟩

/-- Blocks processed by the C3 witness: the same 3-chain store as the
C1/C8 witness, processing one block. -/
theorem locked_monotone_update_nodes_seq_witness :
    ((∀ c ∈ wChainSt.blocks, c.epoch = 0) ∧ (∀ c ∈ [wChainB], c.epoch = 0) ∧
      updateNodesMulti wChainSt [wChainB] =
        .ok (setLastExecutedFrom wChainSt2 wChainCB) ∧
      lockedGet? wChainSt 0 = some ⟨2, 2⟩) ∧
    ∃ lk2, lockedGet? (setLastExecutedFrom wChainSt2 wChainCB) 0 = some lk2 ∧
      (2 : Nat) ≤ lk2.height :=
  ⟨⟨by decide, by decide, by decide, by decide⟩,
    locked_monotone_update_nodes_seq 0 [wChainB] wChainSt
      (setLastExecutedFrom wChainSt2 wChainCB) (by decide) (by decide) (by decide)
      ⟨2, 2⟩ (by decide)⟩

/-- Specification-side membership in the block pledge: the pair `x`
(transaction id, pledge) arises from some `LocalPrepare`/`LocalAccept`
command with commit decision, whose atom has evidence for the shard
group, through a lock of that transaction whose address lies in the
evidence and which pledges successfully. -/
def PledgeSpec (tryC : LockIntentT → Option Nat → Option Nat) (st : Store)
    (sg : Nat) (cmds : List Command) (x : Nat × Nat) : Prop :=
  ∃ c ∈ cmds, ∃ atom, lpOrLa c = some atom ∧ atom.decision ≠ .abort ∧
    ∃ ev, evidenceGet atom.evidence sg = some ev ∧
      ∃ l ∈ locksForTx st atom.id, ev.contains l.addr = true ∧
        tryC l.intent l.value = some x.2 ∧ x.1 = l.txId

/-- Some included lock of some relevant atom fails
`SubstatePledge::try_create`. -/
def BadLock (tryC : LockIntentT → Option Nat → Option Nat) (st : Store)
    (sg : Nat) (cmds : List Command) : Prop :=
  ∃ c ∈ cmds, ∃ atom, lpOrLa c = some atom ∧ atom.decision ≠ .abort ∧
    ∃ ev, evidenceGet atom.evidence sg = some ev ∧
      ∃ l ∈ locksForTx st atom.id, ev.contains l.addr = true ∧
        tryC l.intent l.value = none

theorem pledgeSpec_cons (tryC : LockIntentT → Option Nat → Option Nat)
    (st : Store) (sg : Nat) (c : Command) (cs : List Command) (x : Nat × Nat) :
    PledgeSpec tryC st sg (c :: cs) x ↔
      ((∃ atom, lpOrLa c = some atom ∧ atom.decision ≠ .abort ∧
        ∃ ev, evidenceGet atom.evidence sg = some ev ∧
          ∃ l ∈ locksForTx st atom.id, ev.contains l.addr = true ∧
            tryC l.intent l.value = some x.2 ∧ x.1 = l.txId) ∨
        PledgeSpec tryC st sg cs x) := by
  unfold PledgeSpec
  constructor
  · rintro ⟨c2, hc2, rest⟩
    rcases List.mem_cons.1 hc2 with rfl | hmem
    · exact Or.inl rest
    · exact Or.inr ⟨c2, hmem, rest⟩
  · rintro (h | ⟨c2, hmem, rest⟩)
    · exact ⟨c, by simp, h⟩
    · exact ⟨c2, by simp [hmem], rest⟩

theorem badLock_cons (tryC : LockIntentT → Option Nat → Option Nat)
    (st : Store) (sg : Nat) (c : Command) (cs : List Command) :
    BadLock tryC st sg (c :: cs) ↔
      ((∃ atom, lpOrLa c = some atom ∧ atom.decision ≠ .abort ∧
        ∃ ev, evidenceGet atom.evidence sg = some ev ∧
          ∃ l ∈ locksForTx st atom.id, ev.contains l.addr = true ∧
            tryC l.intent l.value = none) ∨
        BadLock tryC st sg cs) := by
  unfold BadLock
  constructor
  · rintro ⟨c2, hc2, rest⟩
    rcases List.mem_cons.1 hc2 with rfl | hmem
    · exact Or.inl rest
    · exact Or.inr ⟨c2, hmem, rest⟩
  · rintro (h | ⟨c2, hmem, rest⟩)
    · exact ⟨c, by simp, h⟩
    · exact ⟨c2, by simp [hmem], rest⟩

theorem pledgesForLocks_spec (tryC : LockIntentT → Option Nat → Option Nat) :
    ∀ (locks : List LockedSubstate),
      ((∃ l ∈ locks, tryC l.intent l.value = none) →
        pledgesForLocks tryC locks = .error .dataInconsistency) ∧
      ((∀ l ∈ locks, tryC l.intent l.value ≠ none) →
        ∃ ps, pledgesForLocks tryC locks = .ok ps ∧
          ∀ x : Nat × Nat, x ∈ ps ↔
            ∃ l ∈ locks, tryC l.intent l.value = some x.2 ∧ x.1 = l.txId) := by
  intro locks
  induction locks with
  | nil =>
    constructor
    · rintro ⟨l, hl, -⟩
      cases hl
    · intro _
      exact ⟨[], rfl, by simp⟩
  | cons l rest ih =>
    constructor
    · rintro ⟨l2, hl2, hnone⟩
      rcases List.mem_cons.1 hl2 with rfl | hmem
      · unfold pledgesForLocks
        rw [hnone]
      · cases htc : tryC l.intent l.value with
        | none =>
          unfold pledgesForLocks
          rw [htc]
        | some p =>
          unfold pledgesForLocks
          rw [htc]
          dsimp only
          rw [ih.1 ⟨l2, hmem, hnone⟩, exc_bind_error]
    · intro hall
      cases htc : tryC l.intent l.value with
      | none => exact absurd htc (hall l (by simp))
      | some p =>
        obtain ⟨ps, hok, hmemiff⟩ := ih.2 (fun y hy => hall y (by simp [hy]))
        refine ⟨(l.txId, p) :: ps, ?_, ?_⟩
        · unfold pledgesForLocks
          rw [htc, hok]
          rfl
        · rintro ⟨x1, x2⟩
          simp only [List.mem_cons]
          rw [hmemiff ⟨x1, x2⟩]
          constructor
          · rintro (heq | ⟨l2, hl2, h2⟩)
            · cases heq
              exact ⟨l, by simp, by simp [htc]⟩
            · exact ⟨l2, by simp [hl2], h2⟩
          · rintro ⟨l2, hl2, hsome, hfst⟩
            rcases hl2 with rfl | hmem
            · left
              rw [htc] at hsome
              have hx2 : p = x2 := Option.some_inj.mp hsome
              rw [hfst, hx2]
            · right
              exact ⟨l2, hmem, hsome, hfst⟩

theorem gbp_skip (tryC : LockIntentT → Option Nat → Option Nat) (st : Store)
    (sg : Nat) (c : Command) (cs : List Command)
    (hvan : ∀ atom, lpOrLa c = some atom → atom.decision ≠ .abort →
      ∀ ev, evidenceGet atom.evidence sg = some ev → False)
    (heval : getBlockPledgeGo tryC st sg (c :: cs) = getBlockPledgeGo tryC st sg cs)
    (ih1 : ∀ pl, getBlockPledgeGo tryC st sg cs = .ok pl →
      ∀ x, x ∈ pl ↔ PledgeSpec tryC st sg cs x)
    (ih2 : BadLock tryC st sg cs →
      getBlockPledgeGo tryC st sg cs = .error .dataInconsistency)
    (ih3 : ¬ BadLock tryC st sg cs →
      ∃ pl, getBlockPledgeGo tryC st sg cs = .ok pl) :
    (∀ pl, getBlockPledgeGo tryC st sg (c :: cs) = .ok pl →
      ∀ x, x ∈ pl ↔ PledgeSpec tryC st sg (c :: cs) x) ∧
    (BadLock tryC st sg (c :: cs) →
      getBlockPledgeGo tryC st sg (c :: cs) = .error .dataInconsistency) ∧
    (¬ BadLock tryC st sg (c :: cs) →
      ∃ pl, getBlockPledgeGo tryC st sg (c :: cs) = .ok pl) := by
  have hskipP : ∀ x, PledgeSpec tryC st sg (c :: cs) x ↔ PledgeSpec tryC st sg cs x := by
    intro x
    rw [pledgeSpec_cons]
    constructor
    · rintro (⟨atom, hby, hnab, ev, hev, -⟩ | h)
      · exact absurd trivial (by have := hvan atom hby hnab ev hev; exact fun _ => this)
      · exact h
    · exact Or.inr
  have hskipB : BadLock tryC st sg (c :: cs) ↔ BadLock tryC st sg cs := by
    rw [badLock_cons]
    constructor
    · rintro (⟨atom, hby, hnab, ev, hev, -⟩ | h)
      · exact absurd trivial (by have := hvan atom hby hnab ev hev; exact fun _ => this)
      · exact h
    · exact Or.inr
  refine ⟨?_, ?_, ?_⟩
  · intro pl h x
    rw [heval] at h
    rw [hskipP x]
    exact ih1 pl h x
  · intro hb
    rw [heval]
    exact ih2 (hskipB.mp hb)
  · intro hnb
    rw [heval]
    exact ih3 (fun hb => hnb (hskipB.mpr hb))

theorem getBlockPledgeGo_spec (tryC : LockIntentT → Option Nat → Option Nat)
    (st : Store) (sg : Nat) :
    ∀ (cmds : List Command),
      (∀ pl, getBlockPledgeGo tryC st sg cmds = .ok pl →
        ∀ x, x ∈ pl ↔ PledgeSpec tryC st sg cmds x) ∧
      (BadLock tryC st sg cmds →
        getBlockPledgeGo tryC st sg cmds = .error .dataInconsistency) ∧
      (¬ BadLock tryC st sg cmds →
        ∃ pl, getBlockPledgeGo tryC st sg cmds = .ok pl) := by
  intro cmds
  induction cmds with
  | nil =>
    refine ⟨?_, ?_, ?_⟩
    · intro pl h x
      cases h
      simp [PledgeSpec]
    · rintro ⟨cz, hc, -⟩
      cases hc
    · intro _
      exact ⟨[], rfl⟩
  | cons c cs ih =>
    obtain ⟨ih1, ih2, ih3⟩ := ih
    cases hla : lpOrLa c with
    | none =>
      refine gbp_skip tryC st sg c cs ?_ ?_ ih1 ih2 ih3
      · intro atom hby _ _ _
        rw [hla] at hby
        cases hby
      · rw [getBlockPledgeGo, hla]
    | some atom =>
      by_cases hab : atom.decision = .abort
      · refine gbp_skip tryC st sg c cs ?_ ?_ ih1 ih2 ih3
        · intro atom2 hby hnab _ _
          rw [hla] at hby
          cases hby
          exact hnab hab
        · rw [getBlockPledgeGo, hla]
          dsimp only
          rw [if_pos hab]
      · cases hev : evidenceGet atom.evidence sg with
        | none =>
          refine gbp_skip tryC st sg c cs ?_ ?_ ih1 ih2 ih3
          · intro atom2 hby hnab ev2 hev2
            rw [hla] at hby
            cases hby
            rw [hev] at hev2
            cases hev2
          · rw [getBlockPledgeGo, hla]
            dsimp only
            rw [if_neg hab, hev]
        | some ev =>
          have heval : getBlockPledgeGo tryC st sg (c :: cs) =
              (do
                let ps ← pledgesForLocks tryC
                  ((locksForTx st atom.id).filter (fun l => ev.contains l.addr))
                let rest ← getBlockPledgeGo tryC st sg cs
                Except.ok (ps ++ rest)) := by
            rw [getBlockPledgeGo, hla]
            dsimp only
            rw [if_neg hab, hev]
          have hhead : ∀ x : Nat × Nat,
              (∃ atom2, lpOrLa c = some atom2 ∧ atom2.decision ≠ .abort ∧
                ∃ ev2, evidenceGet atom2.evidence sg = some ev2 ∧
                  ∃ l ∈ locksForTx st atom2.id, ev2.contains l.addr = true ∧
                    tryC l.intent l.value = some x.2 ∧ x.1 = l.txId) ↔
              ∃ l ∈ (locksForTx st atom.id).filter (fun l => ev.contains l.addr),
                tryC l.intent l.value = some x.2 ∧ x.1 = l.txId := by
            intro x
            constructor
            · rintro ⟨atom2, hby, hnab, ev2, hev2, l, hl, hcont, h2⟩
              rw [hla] at hby
              cases hby
              rw [hev] at hev2
              cases hev2
              exact ⟨l, List.mem_filter.2 ⟨hl, hcont⟩, h2⟩
            · rintro ⟨l, hl, h2⟩
              obtain ⟨hl0, hcont⟩ := List.mem_filter.1 hl
              exact ⟨atom, hla, hab, ev, hev, l, hl0, hcont, h2⟩
          have hbadhead :
              (∃ atom2, lpOrLa c = some atom2 ∧ atom2.decision ≠ .abort ∧
                ∃ ev2, evidenceGet atom2.evidence sg = some ev2 ∧
                  ∃ l ∈ locksForTx st atom2.id, ev2.contains l.addr = true ∧
                    tryC l.intent l.value = none) ↔
              ∃ l ∈ (locksForTx st atom.id).filter (fun l => ev.contains l.addr),
                tryC l.intent l.value = none := by
            constructor
            · rintro ⟨atom2, hby, hnab, ev2, hev2, l, hl, hcont, h2⟩
              rw [hla] at hby
              cases hby
              rw [hev] at hev2
              cases hev2
              exact ⟨l, List.mem_filter.2 ⟨hl, hcont⟩, h2⟩
            · rintro ⟨l, hl, h2⟩
              obtain ⟨hl0, hcont⟩ := List.mem_filter.1 hl
              exact ⟨atom, hla, hab, ev, hev, l, hl0, hcont, h2⟩
          refine ⟨?_, ?_, ?_⟩
          · intro pl h x
            rw [heval] at h
            by_cases hbad : ∃ l ∈ (locksForTx st atom.id).filter
                (fun l => ev.contains l.addr), tryC l.intent l.value = none
            · rw [(pledgesForLocks_spec tryC _).1 hbad, exc_bind_error] at h
              cases h
            · have hall : ∀ l ∈ (locksForTx st atom.id).filter
                  (fun l => ev.contains l.addr), tryC l.intent l.value ≠ none := by
                intro l hl hn
                exact hbad ⟨l, hl, hn⟩
              obtain ⟨ps, hok, hiff⟩ := (pledgesForLocks_spec tryC _).2 hall
              rw [hok, exc_bind_ok] at h
              cases hr : getBlockPledgeGo tryC st sg cs with
              | error e =>
                rw [hr, exc_bind_error] at h
                cases h
              | ok rest =>
                rw [hr, exc_bind_ok] at h
                cases h
                rw [pledgeSpec_cons, List.mem_append, hhead x, ← hiff x,
                  ih1 rest hr x]
          · intro hb
            rw [badLock_cons] at hb
            rw [heval]
            rcases hb with hh | htail
            · rw [(pledgesForLocks_spec tryC _).1 (hbadhead.mp hh), exc_bind_error]
            · by_cases hbad : ∃ l ∈ (locksForTx st atom.id).filter
                  (fun l => ev.contains l.addr), tryC l.intent l.value = none
              · rw [(pledgesForLocks_spec tryC _).1 hbad, exc_bind_error]
              · have hall : ∀ l ∈ (locksForTx st atom.id).filter
                    (fun l => ev.contains l.addr), tryC l.intent l.value ≠ none := by
                  intro l hl hn
                  exact hbad ⟨l, hl, hn⟩
                obtain ⟨ps, hok, -⟩ := (pledgesForLocks_spec tryC _).2 hall
                rw [hok, exc_bind_ok, ih2 htail, exc_bind_error]
          · intro hnb
            rw [badLock_cons] at hnb
            rw [heval]
            have hnA : ¬ (∃ atom2, lpOrLa c = some atom2 ∧
                atom2.decision ≠ .abort ∧
                ∃ ev2, evidenceGet atom2.evidence sg = some ev2 ∧
                  ∃ l ∈ locksForTx st atom2.id, ev2.contains l.addr = true ∧
                    tryC l.intent l.value = none) := fun h => hnb (Or.inl h)
            have hall : ∀ l ∈ (locksForTx st atom.id).filter
                (fun l => ev.contains l.addr), tryC l.intent l.value ≠ none := by
              intro l hl hn
              exact hnA (hbadhead.mpr ⟨l, hl, hn⟩)
            obtain ⟨ps, hok, -⟩ := (pledgesForLocks_spec tryC _).2 hall
            obtain ⟨rest, hrok⟩ := ih3 (fun h => hnb (Or.inr h))
            exact ⟨ps ++ rest, by rw [hok, exc_bind_ok, hrok, exc_bind_ok]⟩

/-- C6: for every `LocalPrepare`/`LocalAccept` atom with commit decision,
`get_block_pledge` includes exactly the substate locks of the atom's
transaction whose addresses lie in the atom's evidence for the block's
shard group (locks outside that evidence are excluded), returns a
DataInconsistency error exactly when `SubstatePledge::try_create` fails
for an included lock, and atoms with abort decision contribute no
pledges. -/
theorem get_block_pledge_spec (tryC : LockIntentT → Option Nat → Option Nat)
    (st : Store) (b : Block) :
    (∀ pl, getBlockPledge tryC st b = .ok pl →
      ∀ x, x ∈ pl ↔ PledgeSpec tryC st b.shardGroup b.commands x) ∧
    (BadLock tryC st b.shardGroup b.commands →
      getBlockPledge tryC st b = .error .dataInconsistency) ∧
    (¬ BadLock tryC st b.shardGroup b.commands →
      ∃ pl, getBlockPledge tryC st b = .ok pl) :=
  getBlockPledgeGo_spec tryC st b.shardGroup b.commands

/-- Pledge constructor used by the pledge witness: always succeeds,
returning the locked address. -/
def wTryC : LockIntentT → Option Nat → Option Nat := fun i _ => some i.addr

/-- Committing atom of the pledge witness, with evidence for shard group
0 naming addresses 10 and 11. -/
def wPledgeAtom : TransactionAtom := ⟨7, .commit, [(0, [10, 11])]⟩

/-- Aborted atom of the pledge witness. -/
def wPledgeAbort : TransactionAtom := ⟨8, .abort, [(0, [12])]⟩

/-- Block of the pledge witness. -/
def wPledgeB : Block :=
  ⟨30, 0, 1, 0, 0, ⟨0, 0, 0, 0⟩, false,
    [.localPrepare wPledgeAtom, .localAccept wPledgeAbort], false, false⟩

/-- Store of the pledge witness: transaction 7 holds a lock on address
10 (inside the evidence) and one on address 12 (outside the evidence);
the aborted transaction 8 also holds a lock. -/
def wPledgeSt : Store :=
  ⟨[], [], none, [], [], [], [],
    [⟨7, 10, 0, 0, some 5, 100⟩, ⟨7, 12, 1, 0, none, 100⟩, ⟨8, 12, 0, 0, some 6, 100⟩],
    [], [], [], []⟩

theorem get_block_pledge_spec_witness :
    getBlockPledge wTryC wPledgeSt wPledgeB = .ok [(7, 10)] ∧
    (((7, 10) : Nat × Nat) ∈ [((7, 10) : Nat × Nat)] ↔
      PledgeSpec wTryC wPledgeSt wPledgeB.shardGroup wPledgeB.commands (7, 10)) ∧
    (((7, 12) : Nat × Nat) ∈ [((7, 10) : Nat × Nat)] ↔
      PledgeSpec wTryC wPledgeSt wPledgeB.shardGroup wPledgeB.commands (7, 12)) :=
  ⟨by decide,
    (get_block_pledge_spec wTryC wPledgeSt wPledgeB).1 [(7, 10)] (by decide) (7, 10),
    (get_block_pledge_spec wTryC wPledgeSt wPledgeB).1 [(7, 10)] (by decide) (7, 12)⟩

/-- Monotone store relation along the deletion cascade: blocks and
keyed artifact tables only lose rows, and proposed-in marks are only
cleared, never introduced. -/
def StoreSub (st2 st : Store) : Prop :=
  st2.blocks.Sublist st.blocks ∧
  st2.blockDiffs.Sublist st.blockDiffs ∧
  st2.pendingTreeDiffs.Sublist st.pendingTreeDiffs ∧
  st2.substateLocks.Sublist st.substateLocks ∧
  st2.poolStateUpdates.Sublist st.poolStateUpdates ∧
  st2.transactionExecutions.Sublist st.transactionExecutions ∧
  (∀ p v, (p, some v) ∈ st2.foreignProposals → (p, some v) ∈ st.foreignProposals) ∧
  (∀ p v, (p, some v) ∈ st2.burntUtxos → (p, some v) ∈ st.burntUtxos)

theorem storeSub_refl (st : Store) : StoreSub st st :=
  ⟨List.Sublist.refl _, List.Sublist.refl _, List.Sublist.refl _, List.Sublist.refl _,
    List.Sublist.refl _, List.Sublist.refl _, fun _ _ h => h, fun _ _ h => h⟩

theorem storeSub_trans {st3 st2 st : Store} (h1 : StoreSub st3 st2)
    (h2 : StoreSub st2 st) : StoreSub st3 st :=
  ⟨h1.1.trans h2.1, h1.2.1.trans h2.2.1, h1.2.2.1.trans h2.2.2.1,
    h1.2.2.2.1.trans h2.2.2.2.1, h1.2.2.2.2.1.trans h2.2.2.2.2.1,
    h1.2.2.2.2.2.1.trans h2.2.2.2.2.2.1,
    fun p v h => h2.2.2.2.2.2.2.1 p v (h1.2.2.2.2.2.2.1 p v h),
    fun p v h => h2.2.2.2.2.2.2.2 p v (h1.2.2.2.2.2.2.2 p v h)⟩

theorem storeSub_step (st : Store) (id : Nat) :
    StoreSub (blocksDelete (removeArtifacts st id) id) st := by
  refine ⟨List.filter_sublist _, List.filter_sublist _, List.filter_sublist _,
    List.filter_sublist _, List.filter_sublist _, List.filter_sublist _, ?_, ?_⟩
  · intro p v h
    simp only [blocksDelete, removeArtifacts, List.mem_map] at h
    obtain ⟨e, he, heq⟩ := h
    by_cases hc : e.2 == some id
    · rw [if_pos hc] at heq
      cases heq
    · rw [if_neg hc] at heq
      rwa [← heq]
  · intro p v h
    simp only [blocksDelete, removeArtifacts, List.mem_map] at h
    obtain ⟨e, he, heq⟩ := h
    by_cases hc : e.2 == some id
    · rw [if_pos hc] at heq
      cases heq
    · rw [if_neg hc] at heq
      rwa [← heq]

theorem lookupNat_none_iff {α : Type} (l : List (Nat × α)) (id : Nat) :
    lookupNat l id = none ↔ ∀ e ∈ l, e.1 ≠ id := by
  unfold lookupNat
  rw [Option.map_eq_none', List.find?_eq_none]
  constructor
  · intro h e he heq
    have := h e he
    simp [heq] at this
  · intro h e he
    simp [h e he]

theorem cleared_mono {st2 st : Store} (hs : StoreSub st2 st) {id : Nat}
    (hc : Cleared st id) : Cleared st2 id := by
  obtain ⟨h1, h2, h3, h4, h5, h6, h7⟩ := hc
  refine ⟨?_, ?_, ?_, ?_, ?_, ?_, ?_⟩
  · exact (lookupNat_none_iff _ _).mpr
      (fun e he => (lookupNat_none_iff _ _).mp h1 e (hs.2.1.subset he))
  · exact (lookupNat_none_iff _ _).mpr
      (fun e he => (lookupNat_none_iff _ _).mp h2 e (hs.2.2.1.subset he))
  · exact fun l hl => h3 l (hs.2.2.2.1.subset hl)
  · exact (lookupNat_none_iff _ _).mpr
      (fun e he => (lookupNat_none_iff _ _).mp h4 e (hs.2.2.2.2.1.subset he))
  · exact (lookupNat_none_iff _ _).mpr
      (fun e he => (lookupNat_none_iff _ _).mp h5 e (hs.2.2.2.2.2.1.subset he))
  · intro e he heq
    exact h6 (e.1, some id) (hs.2.2.2.2.2.2.1 e.1 id (by rwa [← heq])) rfl
  · intro e he heq
    exact h7 (e.1, some id) (hs.2.2.2.2.2.2.2 e.1 id (by rwa [← heq])) rfl

theorem cleared_step (st : Store) (id : Nat) :
    Cleared (blocksDelete (removeArtifacts st id) id) id := by
  refine ⟨lookupNat_filter_ne _ _, lookupNat_filter_ne _ _, ?_, lookupNat_filter_ne _ _,
    lookupNat_filter_ne _ _, ?_, ?_⟩
  · intro l hl
    have := (List.mem_filter.mp hl).2
    simpa using this
  · intro e he heq
    simp only [blocksDelete, removeArtifacts, List.mem_map] at he
    obtain ⟨e2, he2, heq2⟩ := he
    by_cases hc : e2.2 == some id
    · rw [if_pos hc] at heq2
      rw [← heq2] at heq
      cases heq
    · rw [if_neg hc] at heq2
      rw [← heq2] at heq
      rw [heq] at hc
      simp at hc
  · intro e he heq
    simp only [blocksDelete, removeArtifacts, List.mem_map] at he
    obtain ⟨e2, he2, heq2⟩ := he
    by_cases hc : e2.2 == some id
    · rw [if_pos hc] at heq2
      rw [← heq2] at heq
      cases heq
    · rw [if_neg hc] at heq2
      rw [← heq2] at heq
      rw [heq] at hc
      simp at hc

/-- Two ids are separated when no chain of parent links reaches both. -/
def SepIds (bs : List Block) (ids : List Nat) : Prop :=
  ∀ i ∈ ids, ∀ j ∈ ids, i ≠ j →
    ∀ x k m, parentIterId bs k x = some i → parentIterId bs m x = some j → False

theorem eq_of_mem_id {bs : List Block} (hn : IdsNodup bs) {a b : Block}
    (ha : a ∈ bs) (hb : b ∈ bs) (hid : a.id = b.id) : a = b := by
  have h1 := blocksFind?_of_mem hn ha
  have h2 := blocksFind?_of_mem hn hb
  rw [hid] at h1
  rw [h1] at h2
  exact Option.some_inj.mp h2

theorem heightWF_sublist {bs1 bs2 : List Block} (hs : bs1.Sublist bs2)
    (hw : HeightWF bs2) : HeightWF bs1 :=
  fun b hb p hp hpar => hw b (hs.subset hb) p (hs.subset hp) hpar

theorem mem_childIds {bs : List Block} {id y : Nat} :
    y ∈ childIds bs id ↔ ∃ w ∈ bs, w.id = y ∧ w.parent = id := by
  unfold childIds
  rw [List.mem_map]
  constructor
  · rintro ⟨w, hw, rfl⟩
    obtain ⟨hmem, hpar⟩ := List.mem_filter.mp hw
    exact ⟨w, hmem, rfl, by simpa using hpar⟩
  · rintro ⟨w, hmem, rfl, hpar⟩
    exact ⟨w, List.mem_filter.mpr ⟨hmem, by simpa using hpar⟩, rfl⟩

theorem mem_idsByEpochHeight {bs : List Block} {e h y : Nat} :
    y ∈ idsByEpochHeight bs e h ↔
      ∃ w ∈ bs, w.id = y ∧ w.epoch = e ∧ w.height = h := by
  unfold idsByEpochHeight
  rw [List.mem_map]
  constructor
  · rintro ⟨w, hw, rfl⟩
    obtain ⟨hmem, hcond⟩ := List.mem_filter.mp hw
    simp only [Bool.and_eq_true, beq_iff_eq] at hcond
    exact ⟨w, hmem, rfl, hcond.1, hcond.2⟩
  · rintro ⟨w, hmem, rfl, he, hh⟩
    exact ⟨w, List.mem_filter.mpr ⟨hmem, by simp [he, hh]⟩, rfl⟩

theorem childIds_nodup {bs : List Block} (hn : IdsNodup bs) (id : Nat) :
    (childIds bs id).Nodup := by
  unfold childIds
  exact List.Nodup.sublist (List.Sublist.map _ (List.filter_sublist _)) hn

theorem idsByEpochHeight_nodup {bs : List Block} (hn : IdsNodup bs) (e h : Nat) :
    (idsByEpochHeight bs e h).Nodup := by
  unfold idsByEpochHeight
  exact List.Nodup.sublist (List.Sublist.map _ (List.filter_sublist _)) hn

theorem parentIterId_one {bs : List Block} (hn : IdsNodup bs) {w : Block}
    (hw : w ∈ bs) : parentIterId bs 1 w.id = some w.parent := by
  rw [parentIterId_succ, blocksFind?_of_mem hn hw]
  rfl

theorem sep_core {bs : List Block} {i j x k m : Nat}
    (hk : parentIterId bs k x = some i) (hm : parentIterId bs m x = some j)
    (hlt : k < m) : parentIterId bs (m - k) i = some j := by
  have hmk : m = k + (m - k) := by omega
  rw [hmk, parentIterId_add, hk] at hm
  simpa using hm

/-- A chain of parent links cannot reach two distinct children of the
same node (else the parent would sit strictly above itself). -/
theorem childIds_sep {bs : List Block} (hn : IdsNodup bs) (hw : HeightWF bs)
    (id : Nat) : SepIds bs (childIds bs id) := by
  have key : ∀ i ∈ childIds bs id, ∀ j ∈ childIds bs id,
      ∀ x k m, k < m → parentIterId bs k x = some i →
        parentIterId bs m x = some j → False := by
    intro i hi j hj x k m hlt hk hm
    obtain ⟨wi, hwi, rfl, hwip⟩ := mem_childIds.mp hi
    obtain ⟨wj, hwj, rfl, hwjp⟩ := mem_childIds.mp hj
    have hreach := sep_core hk hm hlt
    have hd : 1 ≤ m - k := by omega
    obtain ⟨d, hdk⟩ : ∃ d, m - k = d + 1 := ⟨m - k - 1, by omega⟩
    rw [hdk, parentIterId_succ, blocksFind?_of_mem hn hwi] at hreach
    dsimp only at hreach
    rw [hwip] at hreach
    cases d with
    | zero =>
      rw [parentIterId_zero] at hreach
      have hjid : wj.id = id := Option.some_inj.mp hreach.symm ▸ rfl
      have : wj.parent = wj.id := by rw [hwjp, ← Option.some_inj.mp hreach]
      have := hw wj hwj wj hwj this.symm
      omega
    | succ d2 =>
      cases hfid : blocksFind? bs id with
      | none =>
        rw [parentIterId_succ, hfid] at hreach
        cases hreach
      | some idb =>
        have hhb := parentIterId_height hw d2 hreach hfid hwj rfl
        obtain ⟨hidm, hidi⟩ := blocksFind?_eq_some hfid
        have := hw wj hwj idb hidm (by rw [hidi, hwjp])
        omega
  intro i hi j hj hne x k m hk hm
  rcases Nat.lt_trichotomy k m with hlt | heq | hgt
  · exact key i hi j hj x k m hlt hk hm
  · rw [heq, hm] at hk
    exact hne (Option.some_inj.mp hk).symm
  · exact key j hj i hi x m k hgt hm hk

/-- A chain of parent links cannot reach two distinct blocks of the same
height (heights strictly decrease along the chain). -/
theorem sameHeight_sep {bs : List Block} (hn : IdsNodup bs) (hw : HeightWF bs)
    (e h : Nat) : SepIds bs (idsByEpochHeight bs e h) := by
  have key : ∀ i ∈ idsByEpochHeight bs e h, ∀ j ∈ idsByEpochHeight bs e h,
      ∀ x k m, k < m → parentIterId bs k x = some i →
        parentIterId bs m x = some j → False := by
    intro i hi j hj x k m hlt hk hm
    obtain ⟨wi, hwi, rfl, hwie, hwih⟩ := mem_idsByEpochHeight.mp hi
    obtain ⟨wj, hwj, rfl, hwje, hwjh⟩ := mem_idsByEpochHeight.mp hj
    have hreach := sep_core hk hm hlt
    obtain ⟨d, hdk⟩ : ∃ d, m - k = d + 1 := ⟨m - k - 1, by omega⟩
    rw [hdk] at hreach
    have := parentIterId_height hw d hreach (blocksFind?_of_mem hn hwi) hwj rfl
    omega
  intro i hi j hj hne x k m hk hm
  rcases Nat.lt_trichotomy k m with hlt | heq | hgt
  · exact key i hi j hj x k m hlt hk hm
  · rw [heq, hm] at hk
    exact hne (Option.some_inj.mp hk).symm
  · exact key j hj i hi x m k hgt hm hk

theorem sepIds_mono {bs1 bs2 : List Block} {ids1 ids2 : List Nat}
    (hs : bs1.Sublist bs2) (hn : IdsNodup bs2) (hsub : ∀ i ∈ ids1, i ∈ ids2)
    (hsep : SepIds bs2 ids2) : SepIds bs1 ids1 := by
  intro i hi j hj hne x k m hk hm
  exact hsep i (hsub i hi) j (hsub j hj) hne x k m
    (parentIterId_sublist hs hn hk) (parentIterId_sublist hs hn hm)

theorem parentIterId_restore {bs2 bs : List Block} (hs : bs2.Sublist bs)
    (hn : IdsNodup bs) :
    ∀ (m : Nat) (x y : Nat), parentIterId bs m x = some y →
      (∀ i < m, ∀ v, parentIterId bs i x = some v → ∃ w ∈ bs2, w.id = v) →
      parentIterId bs2 m x = some y := by
  intro m
  induction m with
  | zero => intro x y h _; exact h
  | succ m ih =>
    intro x y h hcond
    cases hfx : blocksFind? bs x with
    | none => rw [parentIterId_succ, hfx] at h; cases h
    | some xb =>
      obtain ⟨w, hwmem, hwid⟩ := hcond 0 (by omega) x (parentIterId_zero bs x)
      have hweq : w = xb := by
        obtain ⟨hxm, hxid⟩ := blocksFind?_eq_some hfx
        exact eq_of_mem_id hn (hs.subset hwmem) hxm (by rw [hwid, hxid])
      have hfx2 : blocksFind? bs2 x = some xb := by
        obtain ⟨hxm, hxid⟩ := blocksFind?_eq_some hfx
        have h0 := blocksFind?_of_mem (idsNodup_sublist hs hn) (hweq ▸ hwmem)
        rwa [hxid] at h0
      rw [parentIterId_succ, hfx] at h
      rw [parentIterId_succ, hfx2]
      refine ih xb.parent y h ?_
      intro i hi v hv
      refine hcond (i + 1) (by omega) v ?_
      rw [show i + 1 = 1 + i by omega, parentIterId_add]
      have h1 : parentIterId bs 1 x = some xb.parent := by
        rw [parentIterId_succ, hfx]
        rfl
      rw [h1]
      simpa using hv

theorem delRec_sub : ∀ (fuel : Nat) (ids : List Nat) (st st2 : Store),
    delRec fuel st ids = .ok st2 → StoreSub st2 st := by
  intro fuel
  induction fuel using Nat.strong_induction_on with
  | _ fuel IHf =>
    intro ids
    induction ids with
    | nil =>
      intro st st2 h
      rw [delRec_nil] at h
      cases h
      exact storeSub_refl _
    | cons id rest IHl =>
      intro st st2 h
      cases fuel with
      | zero =>
        rw [delRec_zero_cons] at h
        cases h
      | succ f =>
        rw [delRec_succ_cons] at h
        cases hA : delRec f st (childIds st.blocks id) with
        | error e => rw [hA] at h; cases h
        | ok stA =>
          rw [hA] at h
          have hsubA : StoreSub stA st :=
            IHf f (by omega) (childIds st.blocks id) st stA hA
          exact storeSub_trans
            (storeSub_trans (IHl _ _ h) (storeSub_step stA id)) hsubA

theorem delRec_sound : ∀ (fuel : Nat) (ids : List Nat) (st st2 : Store),
    IdsNodup st.blocks → delRec fuel st ids = .ok st2 →
    ∀ c ∈ st.blocks, (∀ id ∈ ids, ¬ ReachOrSelf st.blocks c.id id) →
      c ∈ st2.blocks := by
  intro fuel
  induction fuel using Nat.strong_induction_on with
  | _ fuel IHf =>
    intro ids
    induction ids with
    | nil =>
      intro st st2 _ h c hc _
      rw [delRec_nil] at h
      cases h
      exact hc
    | cons id rest IHl =>
      intro st st2 hn h c hc hnR
      cases fuel with
      | zero =>
        rw [delRec_zero_cons] at h
        cases h
      | succ f =>
        rw [delRec_succ_cons] at h
        cases hA : delRec f st (childIds st.blocks id) with
        | error e => rw [hA] at h; cases h
        | ok stA =>
          rw [hA] at h
          have hsubA : StoreSub stA st :=
            delRec_sub f (childIds st.blocks id) st stA hA
          have hcA : c ∈ stA.blocks := by
            refine IHf f (by omega) (childIds st.blocks id) st stA hn hA c hc ?_
            rintro ch hch ⟨k, hk⟩
            obtain ⟨w, hwmem, hwid, hwpar⟩ := mem_childIds.mp hch
            refine hnR id (by simp) ⟨k + 1, ?_⟩
            rw [parentIterId_add, hk]
            have h1 := parentIterId_one hn hwmem
            rw [hwid] at h1
            simp only [Option.some_bind]
            rw [h1, hwpar]
          have hne : c.id ≠ id := by
            intro heq
            exact hnR id (by simp) ⟨0, by rw [parentIterId_zero, heq]⟩
          have hcB : c ∈ (blocksDelete (removeArtifacts stA id) id).blocks := by
            show c ∈ stA.blocks.filter (fun b => b.id != id)
            exact List.mem_filter.mpr ⟨hcA, by simpa using hne⟩
          have hsubB : (blocksDelete (removeArtifacts stA id) id).blocks.Sublist
              st.blocks :=
            (storeSub_trans (storeSub_step stA id) hsubA).1
          refine IHl _ _ (idsNodup_sublist hsubB hn) h c hcB ?_
          rintro id2 hid2 ⟨k, hk⟩
          exact hnR id2 (by simp [hid2]) ⟨k, parentIterId_sublist hsubB hn hk⟩

theorem phase_survive (f : Nat) (st stA : Store) (id : Nat)
    (hn : IdsNodup st.blocks)
    (hA : delRec f st (childIds st.blocks id) = .ok stA)
    (w : Block) (hw : w ∈ st.blocks) (hnr : ¬ ReachOrSelf st.blocks w.id id) :
    w ∈ (blocksDelete (removeArtifacts stA id) id).blocks := by
  have hwA : w ∈ stA.blocks := by
    refine delRec_sound f (childIds st.blocks id) st stA hn hA w hw ?_
    rintro ch hch ⟨k, hk⟩
    obtain ⟨v, hvmem, hvid, hvpar⟩ := mem_childIds.mp hch
    refine hnr ⟨k + 1, ?_⟩
    rw [parentIterId_add, hk]
    have h1 := parentIterId_one hn hvmem
    rw [hvid] at h1
    simp only [Option.some_bind]
    rw [h1, hvpar]
  have hne : w.id ≠ id := by
    intro heq
    exact hnr ⟨0, by rw [parentIterId_zero, heq]⟩
  show w ∈ stA.blocks.filter (fun b => b.id != id)
  exact List.mem_filter.mpr ⟨hwA, by simpa using hne⟩

theorem delRec_complete : ∀ (fuel : Nat) (ids : List Nat) (st st2 : Store),
    IdsNodup st.blocks → HeightWF st.blocks → ids.Nodup → SepIds st.blocks ids →
    delRec fuel st ids = .ok st2 →
    ∀ c ∈ st.blocks, ∀ id ∈ ids, ReachOrSelf st.blocks c.id id →
      c ∉ st2.blocks ∧ Cleared st2 c.id := by
  intro fuel
  induction fuel using Nat.strong_induction_on with
  | _ fuel IHf =>
    intro ids
    induction ids with
    | nil =>
      intro st st2 _ _ _ _ _ c _ id hid _
      cases hid
    | cons id rest IHl =>
      intro st st2 hn hw hnd hsep h c hc id0 hid0 hr
      cases fuel with
      | zero =>
        rw [delRec_zero_cons] at h
        cases h
      | succ f =>
        rw [delRec_succ_cons] at h
        cases hA : delRec f st (childIds st.blocks id) with
        | error e => rw [hA] at h; cases h
        | ok stA =>
          rw [hA] at h
          have hsubA : StoreSub stA st :=
            delRec_sub f (childIds st.blocks id) st stA hA
          have hsubB : StoreSub (blocksDelete (removeArtifacts stA id) id) st :=
            storeSub_trans (storeSub_step stA id) hsubA
          have hsub2 : StoreSub st2 (blocksDelete (removeArtifacts stA id) id) :=
            delRec_sub (f + 1) rest _ st2 h
          obtain ⟨hidnr, hndr⟩ := List.nodup_cons.mp hnd
          rcases List.mem_cons.mp hid0 with rfl | hid0r
          · -- the reached id is the head of the worklist
            obtain ⟨m, hm⟩ := hr
            cases m with
            | zero =>
              rw [parentIterId_zero] at hm
              have hcid : c.id = id0 := Option.some_inj.mp hm
              constructor
              · intro hcin
                have hcB := hsub2.1.subset hcin
                have := (List.mem_filter.mp hcB).2
                rw [hcid] at this
                simp at this
              · rw [hcid]
                exact cleared_mono hsub2 (cleared_step stA id0)
            | succ m2 =>
              rw [parentIterId_add st.blocks m2 1] at hm
              cases hy : parentIterId st.blocks m2 c.id with
              | none =>
                rw [hy] at hm
                cases hm
              | some y =>
                rw [hy] at hm
                simp only [Option.some_bind] at hm
                rw [parentIterId_succ] at hm
                cases hfy : blocksFind? st.blocks y with
                | none =>
                  rw [hfy] at hm
                  cases hm
                | some w =>
                  rw [hfy] at hm
                  dsimp only at hm
                  rw [parentIterId_zero] at hm
                  have hwpar : w.parent = id0 := Option.some_inj.mp hm
                  obtain ⟨hwmem, hwid⟩ := blocksFind?_eq_some hfy
                  have hych : y ∈ childIds st.blocks id0 :=
                    mem_childIds.mpr ⟨w, hwmem, hwid, hwpar⟩
                  have hout := IHf f (by omega) (childIds st.blocks id0) st stA hn hw
                    (childIds_nodup hn id0) (childIds_sep hn hw id0) hA c hc y hych
                    ⟨m2, hy⟩
                  refine ⟨?_, cleared_mono
                    (storeSub_trans hsub2 (storeSub_step stA id0)) hout.2⟩
                  intro hcin
                  exact hout.1
                    ((storeSub_step stA id0).1.subset (hsub2.1.subset hcin))
          · -- the reached id lies in the tail of the worklist
            have hne0 : id ≠ id0 := fun heq => hidnr (heq ▸ hid0r)
            obtain ⟨m, hm⟩ := hr
            have hcnr : ¬ ReachOrSelf st.blocks c.id id := by
              rintro ⟨k, hk⟩
              exact hsep id (by simp) id0 (by simp [hid0r]) hne0 c.id k m hk hm
            have hcB := phase_survive f st stA id hn hA c hc hcnr
            have hrB : parentIterId (blocksDelete (removeArtifacts stA id) id).blocks
                m c.id = some id0 := by
              refine parentIterId_restore hsubB.1 hn m c.id id0 hm ?_
              intro i hi v hv
              have hrem : parentIterId st.blocks (m - i) v = some id0 := by
                have hmsplit : m = i + (m - i) := by omega
                rw [hmsplit, parentIterId_add, hv] at hm
                simpa using hm
              obtain ⟨d, hd⟩ : ∃ d, m - i = d + 1 := ⟨m - i - 1, by omega⟩
              rw [hd, parentIterId_succ] at hrem
              cases hfv : blocksFind? st.blocks v with
              | none =>
                rw [hfv] at hrem
                cases hrem
              | some w =>
                rw [hfv] at hrem
                dsimp only at hrem
                obtain ⟨hwmem, hwid⟩ := blocksFind?_eq_some hfv
                have hreachw : parentIterId st.blocks (d + 1) w.id = some id0 := by
                  rw [parentIterId_succ, blocksFind?_of_mem hn hwmem]
                  exact hrem
                have hwnr : ¬ ReachOrSelf st.blocks w.id id := by
                  rintro ⟨k2, hk2⟩
                  exact hsep id (by simp) id0 (by simp [hid0r]) hne0 w.id k2 (d + 1)
                    hk2 hreachw
                exact ⟨w, phase_survive f st stA id hn hA w hwmem hwnr, hwid⟩
            refine IHl _ st2 (idsNodup_sublist hsubB.1 hn)
              (heightWF_sublist hsubB.1 hw) hndr
              (sepIds_mono hsubB.1 hn (fun i hi => by simp [hi]) hsep) h c hcB
              id0 hid0r ⟨m, hrB⟩

theorem rpcGo_sub : ∀ (ids : List Nat) (fuel selfId : Nat) (st st2 : Store),
    rpcGo fuel selfId st ids = .ok st2 → StoreSub st2 st := by
  intro ids
  induction ids with
  | nil =>
    intro fuel selfId st st2 h
    rw [rpcGo] at h
    cases h
    exact storeSub_refl _
  | cons id rest ih =>
    intro fuel selfId st st2 h
    rw [rpcGo] at h
    by_cases hid : id = selfId
    · rw [if_pos hid] at h
      exact ih fuel selfId st st2 h
    · rw [if_neg hid] at h
      cases hd : deleteBlockAndChildren fuel st id with
      | error e => rw [hd] at h; cases h
      | ok stB =>
        rw [hd] at h
        exact storeSub_trans (ih fuel selfId stB st2 h)
          (delRec_sub fuel [id] st stB hd)

theorem rpcGo_sound : ∀ (ids : List Nat) (fuel selfId : Nat) (st st2 : Store),
    IdsNodup st.blocks → rpcGo fuel selfId st ids = .ok st2 →
    ∀ c ∈ st.blocks,
      (∀ id ∈ ids, id ≠ selfId → ¬ ReachOrSelf st.blocks c.id id) →
      c ∈ st2.blocks := by
  intro ids
  induction ids with
  | nil =>
    intro fuel selfId st st2 _ h c hc _
    rw [rpcGo] at h
    cases h
    exact hc
  | cons id rest ih =>
    intro fuel selfId st st2 hn h c hc hnr
    rw [rpcGo] at h
    by_cases hid : id = selfId
    · rw [if_pos hid] at h
      exact ih fuel selfId st st2 hn h c hc
        (fun i hi hne => hnr i (by simp [hi]) hne)
    · rw [if_neg hid] at h
      cases hd : deleteBlockAndChildren fuel st id with
      | error e => rw [hd] at h; cases h
      | ok stB =>
        rw [hd] at h
        have hsubB : StoreSub stB st := delRec_sub fuel [id] st stB hd
        have hcB : c ∈ stB.blocks := by
          refine delRec_sound fuel [id] st stB hn hd c hc ?_
          intro i hi
          rw [List.mem_singleton] at hi
          subst hi
          exact hnr i (by simp) hid
        refine ih fuel selfId stB st2 (idsNodup_sublist hsubB.1 hn) h c hcB ?_
        rintro i hi hne ⟨k, hk⟩
        exact hnr i (by simp [hi]) hne ⟨k, parentIterId_sublist hsubB.1 hn hk⟩

theorem rpcGo_complete : ∀ (ids : List Nat) (fuel selfId : Nat) (st st2 : Store),
    IdsNodup st.blocks → HeightWF st.blocks → ids.Nodup → SepIds st.blocks ids →
    rpcGo fuel selfId st ids = .ok st2 →
    ∀ c ∈ st.blocks, ∀ id0 ∈ ids, id0 ≠ selfId →
      ReachOrSelf st.blocks c.id id0 →
      c ∉ st2.blocks ∧ Cleared st2 c.id := by
  intro ids
  induction ids with
  | nil =>
    intro fuel selfId st st2 _ _ _ _ _ c _ id0 hid0 _ _
    cases hid0
  | cons id rest ih =>
    intro fuel selfId st st2 hn hw hnd hsep h c hc id0 hid0 hne0 hr
    obtain ⟨hidnr, hndr⟩ := List.nodup_cons.mp hnd
    rw [rpcGo] at h
    by_cases hid : id = selfId
    · rw [if_pos hid] at h
      have hid0r : id0 ∈ rest := by
        rcases List.mem_cons.mp hid0 with rfl | hm
        · exact absurd hid hne0
        · exact hm
      exact ih fuel selfId st st2 hn hw hndr
        (sepIds_mono (List.Sublist.refl _) hn (fun i hi => by simp [hi]) hsep)
        h c hc id0 hid0r hne0 hr
    · rw [if_neg hid] at h
      cases hd : deleteBlockAndChildren fuel st id with
      | error e => rw [hd] at h; cases h
      | ok stB =>
        rw [hd] at h
        have hsubB : StoreSub stB st := delRec_sub fuel [id] st stB hd
        have hsub2 : StoreSub st2 stB := rpcGo_sub rest fuel selfId stB st2 h
        rcases List.mem_cons.mp hid0 with rfl | hid0r
        · have hout := delRec_complete fuel [id0] st stB hn hw (by simp)
            (by rintro i hi j hj hne x k m _ _
                rw [List.mem_singleton] at hi hj
                exact hne (hi.trans hj.symm)) hd c hc id0 (by simp) hr
          exact ⟨fun hcin => hout.1 (hsub2.1.subset hcin),
            cleared_mono hsub2 hout.2⟩
        · have hneid : id ≠ id0 := fun heq => hidnr (heq ▸ hid0r)
          obtain ⟨m, hm⟩ := hr
          have hcnr : ¬ ReachOrSelf st.blocks c.id id := by
            rintro ⟨k, hk⟩
            exact hsep id (by simp) id0 (by simp [hid0r]) hneid c.id k m hk hm
          have hcB : c ∈ stB.blocks := by
            refine delRec_sound fuel [id] st stB hn hd c hc ?_
            intro i hi
            rw [List.mem_singleton] at hi
            subst hi
            exact hcnr
          have hrB : parentIterId stB.blocks m c.id = some id0 := by
            refine parentIterId_restore hsubB.1 hn m c.id id0 hm ?_
            intro i hi v hv
            have hrem : parentIterId st.blocks (m - i) v = some id0 := by
              have hmsplit : m = i + (m - i) := by omega
              rw [hmsplit, parentIterId_add, hv] at hm
              simpa using hm
            obtain ⟨d, hdd⟩ : ∃ d, m - i = d + 1 := ⟨m - i - 1, by omega⟩
            rw [hdd, parentIterId_succ] at hrem
            cases hfv : blocksFind? st.blocks v with
            | none =>
              rw [hfv] at hrem
              cases hrem
            | some w =>
              rw [hfv] at hrem
              dsimp only at hrem
              obtain ⟨hwmem, hwid⟩ := blocksFind?_eq_some hfv
              have hreachw : parentIterId st.blocks (d + 1) w.id = some id0 := by
                rw [parentIterId_succ, blocksFind?_of_mem hn hwmem]
                exact hrem
              have hwnr : ¬ ReachOrSelf st.blocks w.id id := by
                rintro ⟨k2, hk2⟩
                exact hsep id (by simp) id0 (by simp [hid0r]) hneid w.id k2 (d + 1)
                  hk2 hreachw
              refine ⟨w, ?_, hwid⟩
              refine delRec_sound fuel [id] st stB hn hd w hwmem ?_
              intro i2 hi2
              rw [List.mem_singleton] at hi2
              subst hi2
              exact hwnr
          exact ih fuel selfId stB st2 (idsNodup_sublist hsubB.1 hn)
            (heightWF_sublist hsubB.1 hw) hndr
            (sepIds_mono hsubB.1 hn (fun i hi => by simp [hi]) hsep)
            h c hcB id0 hid0r hne0 ⟨m, hrB⟩

/-- C5: when block B commits, `remove_parallel_chains` deletes every
other stored block at B's (epoch, height) and, transitively, every
stored descendant of such a block, together with their block diffs,
pending state tree diffs, substate locks, transaction pool state
updates, transaction execution records and foreign-proposal (and burnt
utxo) proposed-in marks; B itself is never deleted. -/
theorem remove_parallel_chains_spec (st st2 : Store) (B : Block)
    (hn : IdsNodup st.blocks) (hw : HeightWF st.blocks) (hmem : B ∈ st.blocks)
    (hok : removeParallelChains st B = .ok st2) :
    B ∈ st2.blocks ∧
    ∀ C ∈ st.blocks, ∀ B2 ∈ st.blocks,
      B2.epoch = B.epoch → B2.height = B.height → B2.id ≠ B.id →
      ReachOrSelf st.blocks C.id B2.id →
      C ∉ st2.blocks ∧ Cleared st2 C.id := by
  have hok2 : rpcGo (maxHeight st.blocks + 1) B.id st
      (idsByEpochHeight st.blocks B.epoch B.height) = .ok st2 := hok
  constructor
  · refine rpcGo_sound _ _ _ _ _ hn hok2 B hmem ?_
    intro id hid hneself
    rintro ⟨k, hk⟩
    obtain ⟨w, hwmem, hwid, hwe, hwh⟩ := mem_idsByEpochHeight.mp hid
    cases k with
    | zero =>
      rw [parentIterId_zero] at hk
      exact hneself (Option.some_inj.mp hk).symm
    | succ k2 =>
      have := parentIterId_height hw k2 hk (blocksFind?_of_mem hn hmem) hwmem hwid
      omega
  · intro C hC B2 hB2 he hh hne hr
    exact rpcGo_complete _ _ _ _ _ hn hw (idsByEpochHeight_nodup hn _ _)
      (sameHeight_sep hn hw _ _) hok2 C hC B2.id
      (mem_idsByEpochHeight.mpr ⟨B2, hB2, rfl, he, hh⟩) hne hr

/-- Parent block of the parallel-chain witness. -/
def wDelG : Block := ⟨1, 0, 1, 0, 0, ⟨0, 0, 0, 0⟩, false, [], false, false⟩

/-- Committed block of the parallel-chain witness. -/
def wDelB : Block := ⟨50, 1, 2, 0, 0, ⟨0, 0, 0, 0⟩, false, [], false, false⟩

/-- Parallel sibling of the parallel-chain witness (same epoch and
height as `wDelB`). -/
def wDelB2 : Block := ⟨51, 1, 2, 0, 0, ⟨0, 0, 0, 0⟩, false, [], false, false⟩

/-- Child of the parallel sibling. -/
def wDelC : Block := ⟨52, 51, 3, 0, 0, ⟨0, 0, 0, 0⟩, false, [], false, false⟩

/-- Store of the parallel-chain witness, with artifacts attached to the
doomed blocks 51 and 52. -/
def wDelSt : Store :=
  ⟨[wDelG, wDelB, wDelB2, wDelC], [], none, [], [],
    [(51, []), (52, [])], [(52, 7)], [⟨9, 9, 0, 0, none, 51⟩], [(52, 1)],
    [(51, 1)], [(3, some 52)], [(4, some 51)]⟩

/-- Store left after the cascade delete of the parallel-chain witness. -/
def wDelSt2 : Store :=
  ⟨[wDelG, wDelB], [], none, [], [], [], [], [], [], [], [(3, none)], [(4, none)]⟩

theorem remove_parallel_chains_spec_witness :
    removeParallelChains wDelSt wDelB = .ok wDelSt2 ∧
    wDelB ∈ wDelSt2.blocks ∧
    (wDelB2 ∉ wDelSt2.blocks ∧ Cleared wDelSt2 wDelB2.id) ∧
    (wDelC ∉ wDelSt2.blocks ∧ Cleared wDelSt2 wDelC.id) :=
  ⟨by decide,
    (remove_parallel_chains_spec wDelSt wDelSt2 wDelB (by decide) (by decide)
      (by decide) (by decide)).1,
    (remove_parallel_chains_spec wDelSt wDelSt2 wDelB (by decide) (by decide)
      (by decide) (by decide)).2 wDelB2 (by decide) wDelB2 (by decide) (by decide)
      (by decide) (by decide) ⟨0, by decide⟩,
    (remove_parallel_chains_spec wDelSt wDelSt2 wDelB (by decide) (by decide)
      (by decide) (by decide)).2 wDelC (by decide) wDelB2 (by decide) (by decide)
      (by decide) (by decide) ⟨1, by decide⟩⟩
